import Mathlib

/-!
Verification development for the Klarvia-AI voice relay.

The definitions below are a shallow embedding of the Python sources:

* `src/voicebot/conversation.py` — `normalize_transcript`, `handle_conversation`;
* `src/voicebot/monitoring.py`  — `stage_start`, `stage_end`, `debug_report`;
* `src/ai/main.py`              — the ASGI WebSocket coordinator (`app`), its
  query parsing, token auth, the streaming loop with its `_on_data` /
  `_on_error` callbacks and `_fake_emitter`, and the batch `/ws/audio` path.

External collaborators (the AssemblyAI SDK, `requests`, `subprocess.run`,
OpenAI, ElevenLabs, JSON parsing of control frames) are modelled by their
observable outcomes, passed in explicitly.  Character classes and case
folding are modelled on the ASCII fragment (Lean `Char.isAlphanum`,
`Char.toLower`), matching the ASCII-only brand variants the code rewrites.
Wall-clock time is modelled by integer timestamps and float arithmetic by
exact arithmetic.
-/

namespace Klarvia

/-! ## Word characters and case folding (regex `\b`, `re.IGNORECASE`) -/

/-- Python regex word character, ASCII fragment: letters, digits, underscore. -/
def isWordChar (c : Char) : Bool := c.isAlphanum || c = '_'

theorem toLower_of_not_word {c : Char} (h : isWordChar c = false) : c.toLower = c := by
  have hup : c.isUpper = false := by
    simp only [isWordChar, Char.isAlphanum, Char.isAlpha, Bool.or_eq_false_iff] at h
    exact h.1.1.1
  simp only [Char.toLower, Char.toNat]
  rw [if_neg]
  intro ⟨h1, h2⟩
  have : c.isUpper = true := by
    simp only [Char.isUpper, Bool.and_eq_true, decide_eq_true_eq]
    constructor
    · show (65:UInt32).toNat ≤ c.val.toNat
      simpa using h1
    · show c.val.toNat ≤ (90:UInt32).toNat
      simpa using h2
  rw [hup] at this
  cases this

theorem word_of_toLower_word {c p : Char} (hp : isWordChar p = true)
    (h : c.toLower = p) : isWordChar c = true := by
  by_contra hc
  rw [Bool.not_eq_true] at hc
  rw [toLower_of_not_word hc] at h
  rw [h] at hc
  rw [hp] at hc
  cases hc

/-! ## The scan underlying `re.sub(rf"\b{wrong}\b", rep, s, flags=re.IGNORECASE)`

`wordMatchAt pat s` decides whether the (lowercase, word-character) literal
`pat` matches at the head of `s`, including the trailing `\b`; the leading
`\b` is the responsibility of the caller, who tracks the class of the
previous character in `prev`. -/

def wordMatchAt (pat s : List Char) : Bool :=
  !pat.isEmpty && ((s.take pat.length).map Char.toLower == pat) &&
    (match s.drop pat.length with
     | [] => true
     | c :: _ => !isWordChar c)

/-- Left-to-right non-overlapping replacement scan of `re.sub`: `skip`
counts characters of the current match still to be consumed, `prev` records
whether the character just before the current position is a word character.
After a match the scan resumes past the replaced region with `prev = true`
(for the word-only literals of the source every matched character is a word
character). -/
def subWordScan (pat rep : List Char) : Nat → Bool → List Char → List Char
  | _, _, [] => []
  | skip + 1, _, _ :: rest => subWordScan pat rep skip true rest
  | 0, prev, c :: rest =>
    if prev = false ∧ wordMatchAt pat (c :: rest) = true then
      rep ++ subWordScan pat rep (pat.length - 1) true rest
    else
      c :: subWordScan pat rep 0 (isWordChar c) rest

/-- The scan from a given boundary state, with no pending match. -/
def subWordAux (pat rep : List Char) (prev : Bool) (s : List Char) : List Char :=
  subWordScan pat rep 0 prev s

theorem subWordScan_skip (pat rep : List Char) :
    ∀ (l : List Char) (skip : Nat) (prev : Bool),
      subWordScan pat rep (skip + 1) prev l =
        subWordScan pat rep 0 true (l.drop (skip + 1)) := by
  intro l
  induction l with
  | nil => intro skip prev; rfl
  | cons c rest ih =>
    intro skip prev
    show subWordScan pat rep skip true rest = _
    cases skip with
    | zero => rfl
    | succ k => rw [ih k true]; rfl

theorem subWordAux_nil (pat rep : List Char) (prev : Bool) :
    subWordAux pat rep prev [] = [] := rfl

theorem subWordAux_cons_match {pat : List Char} (rep : List Char) {c : Char}
    {rest : List Char} (hm : wordMatchAt pat (c :: rest) = true) :
    subWordAux pat rep false (c :: rest) =
      rep ++ subWordAux pat rep true ((c :: rest).drop pat.length) := by
  have hp : pat ≠ [] := by
    unfold wordMatchAt at hm
    rcases Bool.and_eq_true_iff.mp hm with ⟨hm1, -⟩
    rcases Bool.and_eq_true_iff.mp hm1 with ⟨hm2, -⟩
    simpa using hm2
  unfold subWordAux
  show (if false = false ∧ wordMatchAt pat (c :: rest) = true then
      rep ++ subWordScan pat rep (pat.length - 1) true rest
    else
      c :: subWordScan pat rep 0 (isWordChar c) rest) = _
  rw [if_pos ⟨rfl, hm⟩]
  congr 1
  cases hpl : pat.length with
  | zero => exact absurd (List.length_eq_zero.mp hpl) hp
  | succ k =>
    simp only [Nat.succ_sub_one]
    cases k with
    | zero => rfl
    | succ k' => rw [subWordScan_skip pat rep rest k' true]; rfl

theorem subWordAux_cons_nomatch {pat : List Char} (rep : List Char) {prev : Bool}
    {c : Char} {rest : List Char}
    (h : ¬(prev = false ∧ wordMatchAt pat (c :: rest) = true)) :
    subWordAux pat rep prev (c :: rest) = c :: subWordAux pat rep (isWordChar c) rest := by
  unfold subWordAux
  show (if prev = false ∧ wordMatchAt pat (c :: rest) = true then
      rep ++ subWordScan pat rep (pat.length - 1) true rest
    else
      c :: subWordScan pat rep 0 (isWordChar c) rest) = _
  rw [if_neg h]

/-! ## Maximal runs of equal word-class

These are not part of the source; they are the analysis device for the
regex scan: a `\b`-delimited occurrence of an all-word-character literal is
exactly a maximal run of word characters. -/

theorem length_dropWhile_le (p : Char → Bool) (l : List Char) :
    (l.dropWhile p).length ≤ l.length := by
  induction l with
  | nil => simp
  | cons c rest ih =>
    rw [List.dropWhile_cons]
    by_cases h : p c = true
    · simp only [h, if_true]
      exact Nat.le_succ_of_le ih
    · simp [h]

/-- Decomposition of a string into maximal runs of characters of equal
word-class. -/
def runs : List Char → List (List Char)
  | [] => []
  | c :: rest =>
    match runs rest with
    | [] => [[c]]
    | [] :: rs => [c] :: rs
    | (d :: r') :: rs =>
      if isWordChar c == isWordChar d then (c :: d :: r') :: rs
      else [c] :: (d :: r') :: rs

theorem runs_nil : runs [] = [] := rfl

theorem runs_cons (c : Char) (rest : List Char) :
    runs (c :: rest) =
      (c :: rest.takeWhile (fun x => isWordChar x == isWordChar c)) ::
        runs (rest.dropWhile (fun x => isWordChar x == isWordChar c)) := by
  induction rest generalizing c with
  | nil => rfl
  | cons d rest' ih =>
    show (match runs (d :: rest') with
      | [] => [[c]]
      | [] :: rs => [c] :: rs
      | (e :: r') :: rs =>
        if isWordChar c == isWordChar e then (c :: e :: r') :: rs
        else [c] :: (e :: r') :: rs) = _
    rw [ih d]
    show (if isWordChar c == isWordChar d then
        (c :: d :: rest'.takeWhile (fun x => isWordChar x == isWordChar d)) ::
          runs (rest'.dropWhile (fun x => isWordChar x == isWordChar d))
      else
        [c] :: (d :: rest'.takeWhile (fun x => isWordChar x == isWordChar d)) ::
          runs (rest'.dropWhile (fun x => isWordChar x == isWordChar d))) = _
    by_cases hcd : isWordChar c = isWordChar d
    · rw [if_pos (by rw [hcd]; exact beq_self_eq_true _)]
      have hpp : (fun x => isWordChar x == isWordChar c) =
          (fun x => isWordChar x == isWordChar d) := funext fun x => by rw [hcd]
      rw [List.takeWhile_cons, List.dropWhile_cons]
      rw [show (isWordChar d == isWordChar c) = true from by rw [hcd]; exact beq_self_eq_true _]
      simp only [if_true]
      rw [hpp]
    · rw [if_neg (by simpa using hcd)]
      have hdc : (isWordChar d == isWordChar c) = false := by
        simp only [beq_eq_false_iff_ne, ne_eq]
        exact fun h => hcd h.symm
      rw [List.takeWhile_cons, List.dropWhile_cons, hdc]
      simp only [Bool.false_eq_true, if_false]
      rw [ih d]

/-- The word-class of a run (class of its head; `false` for the empty run). -/
def runClass (r : List Char) : Bool :=
  match r with
  | [] => false
  | c :: _ => isWordChar c

theorem takeWhile_append_all {p : Char → Bool} {a : List Char} (b : List Char)
    (h : ∀ x ∈ a, p x = true) : (a ++ b).takeWhile p = a ++ b.takeWhile p := by
  induction a with
  | nil => simp
  | cons c a' ih =>
    rw [List.cons_append, List.takeWhile_cons]
    rw [h c (by simp)]
    simp only [if_true]
    rw [ih (fun x hx => h x (by simp [hx]))]
    rfl

theorem dropWhile_append_all {p : Char → Bool} {a : List Char} (b : List Char)
    (h : ∀ x ∈ a, p x = true) : (a ++ b).dropWhile p = b.dropWhile p := by
  induction a with
  | nil => simp
  | cons c a' ih =>
    rw [List.cons_append, List.dropWhile_cons]
    rw [h c (by simp)]
    simp only [if_true]
    exact ih (fun x hx => h x (by simp [hx]))

theorem takeWhile_head_false {p : Char → Bool} {b : List Char}
    (h : ∀ c ∈ b.head?, p c = false) : b.takeWhile p = [] := by
  cases b with
  | nil => simp
  | cons c b' =>
    rw [List.takeWhile_cons]
    rw [h c rfl]
    simp

theorem dropWhile_head_false {p : Char → Bool} {b : List Char}
    (h : ∀ c ∈ b.head?, p c = false) : b.dropWhile p = b := by
  cases b with
  | nil => simp
  | cons c b' =>
    rw [List.dropWhile_cons]
    rw [h c rfl]
    simp

theorem mem_takeWhile_pred {p : Char → Bool} {l : List Char} {x : Char}
    (h : x ∈ l.takeWhile p) : p x = true := by
  induction l with
  | nil => simp at h
  | cons c rest ih =>
    rw [List.takeWhile_cons] at h
    by_cases hc : p c = true
    · rw [hc] at h
      simp only [if_true, List.mem_cons] at h
      rcases h with rfl | h
      · exact hc
      · exact ih h
    · simp [hc] at h

theorem dropWhile_head_not {p : Char → Bool} {l : List Char} {c : Char}
    {t : List Char} (h : l.dropWhile p = c :: t) : p c = false := by
  induction l with
  | nil => simp at h
  | cons a rest ih =>
    rw [List.dropWhile_cons] at h
    by_cases ha : p a = true
    · rw [ha] at h
      exact ih (by simpa using h)
    · rw [Bool.not_eq_true] at ha
      rw [ha, if_neg (by simp)] at h
      cases h
      exact ha

theorem runs_flatten (s : List Char) : (runs s).flatten = s := by
  cases s with
  | nil => simp [runs_nil]
  | cons c rest =>
    rw [runs_cons, List.flatten_cons]
    rw [runs_flatten (rest.dropWhile (fun x => isWordChar x == isWordChar c))]
    simp [List.takeWhile_append_dropWhile]
termination_by s.length
decreasing_by
  simp only [List.length_cons]
  exact Nat.lt_succ_of_le (length_dropWhile_le _ _)

theorem runs_ne_nil (s : List Char) : ∀ r ∈ runs s, r ≠ [] := by
  cases s with
  | nil => simp [runs_nil]
  | cons c rest =>
    rw [runs_cons]
    intro r hr
    rcases List.mem_cons.mp hr with rfl | hr
    · simp
    · exact runs_ne_nil (rest.dropWhile (fun x => isWordChar x == isWordChar c)) r hr
termination_by s.length
decreasing_by
  simp only [List.length_cons]
  exact Nat.lt_succ_of_le (length_dropWhile_le _ _)

theorem runs_uniform (s : List Char) :
    ∀ r ∈ runs s, ∀ c ∈ r, isWordChar c = runClass r := by
  cases s with
  | nil => simp [runs_nil]
  | cons c rest =>
    rw [runs_cons]
    intro r hr
    rcases List.mem_cons.mp hr with rfl | hr
    · intro x hx
      simp only [runClass]
      rcases List.mem_cons.mp hx with rfl | hx
      · rfl
      · have := mem_takeWhile_pred hx
        simpa using this
    · exact runs_uniform (rest.dropWhile (fun x => isWordChar x == isWordChar c)) r hr
termination_by s.length
decreasing_by
  simp only [List.length_cons]
  exact Nat.lt_succ_of_le (length_dropWhile_le _ _)

theorem runs_chain (s : List Char) :
    List.Chain' (fun a b => runClass a ≠ runClass b) (runs s) := by
  cases s with
  | nil => simp [runs_nil]
  | cons c rest =>
    rw [runs_cons]
    rw [List.chain'_cons']
    refine ⟨?_, runs_chain (rest.dropWhile (fun x => isWordChar x == isWordChar c))⟩
    intro y hy
    cases htt : rest.dropWhile (fun x => isWordChar x == isWordChar c) with
    | nil => rw [htt] at hy; simp [runs_nil] at hy
    | cons d t' =>
      rw [htt, runs_cons] at hy
      simp only [List.head?_cons, Option.mem_def, Option.some.injEq] at hy
      subst hy
      have hd : (fun x => isWordChar x == isWordChar c) d = false :=
        dropWhile_head_not htt
      simp only [beq_eq_false_iff_ne, ne_eq] at hd
      simp only [runClass]
      exact fun hcd => hd hcd.symm
termination_by s.length
decreasing_by
  simp only [List.length_cons]
  exact Nat.lt_succ_of_le (length_dropWhile_le _ _)

/-- Rebuilding: a list of nonempty, uniform, class-alternating runs is its
own run decomposition. -/
theorem runs_of_flatten (rs : List (List Char))
    (hne : ∀ r ∈ rs, r ≠ [])
    (hu : ∀ r ∈ rs, ∀ c ∈ r, isWordChar c = runClass r)
    (hc : List.Chain' (fun a b => runClass a ≠ runClass b) rs) :
    runs rs.flatten = rs := by
  induction rs with
  | nil => simp [runs_nil]
  | cons r rs' ih =>
    have hrne : r ≠ [] := hne r (by simp)
    obtain ⟨c, r', rfl⟩ := List.exists_cons_of_ne_nil hrne
    rw [List.flatten_cons, List.cons_append, runs_cons]
    have hr'all : ∀ x ∈ r', (fun x => isWordChar x == isWordChar c) x = true := by
      intro x hx
      have h1 := hu (c :: r') (by simp) x (by simp [hx])
      have h2 := hu (c :: r') (by simp) c (by simp)
      simp only [beq_iff_eq]
      rw [h1, h2]
    have hheadfail : ∀ x ∈ (rs'.flatten).head?,
        (fun y => isWordChar y == isWordChar c) x = false := by
      intro x hx
      cases rs' with
      | nil => simp at hx
      | cons r₂ rs'' =>
        have hr₂ne : r₂ ≠ [] := hne r₂ (by simp)
        obtain ⟨d, r₂', rfl⟩ := List.exists_cons_of_ne_nil hr₂ne
        rw [List.flatten_cons, List.cons_append] at hx
        simp only [List.head?_cons, Option.mem_def, Option.some.injEq] at hx
        subst hx
        have hcl : runClass (c :: r') ≠ runClass (d :: r₂') := by
          rw [List.chain'_cons'] at hc
          exact hc.1 (d :: r₂') (by simp)
        simp only [runClass] at hcl
        simp only [beq_eq_false_iff_ne, ne_eq]
        exact fun hdc => hcl hdc.symm
    rw [takeWhile_append_all _ hr'all, dropWhile_append_all _ hr'all]
    rw [takeWhile_head_false hheadfail, dropWhile_head_false hheadfail]
    rw [List.append_nil]
    congr 1
    apply ih
    · exact fun x hx => hne x (by simp [hx])
    · exact fun x hx => hu x (by simp [hx])
    · exact (List.chain'_cons'.mp hc).2

/-! ## How the scan treats one run -/

theorem wordMatchAt_false_of_head_nonword {pat : List Char}
    (hpat : ∀ c ∈ pat, isWordChar c = true) {c : Char} (rest : List Char)
    (hc : isWordChar c = false) : wordMatchAt pat (c :: rest) = false := by
  cases pat with
  | nil => simp [wordMatchAt]
  | cons p pat' =>
    unfold wordMatchAt
    apply Bool.and_eq_false_iff.mpr
    left
    apply Bool.and_eq_false_iff.mpr
    right
    rw [beq_eq_false_iff_ne]
    intro heq
    rw [List.length_cons, List.take_succ_cons, List.map_cons] at heq
    have hcp : c.toLower = p := (List.cons.injEq _ _ _ _ ▸ heq).1
    have := word_of_toLower_word (hpat p (by simp)) hcp
    rw [hc] at this
    cases this

theorem subWordAux_prev_any {pat rep : List Char} {c : Char} {t : List Char}
    (hpat : ∀ x ∈ pat, isWordChar x = true) (hc : isWordChar c = false) (prev : Bool) :
    subWordAux pat rep prev (c :: t) = c :: subWordAux pat rep (isWordChar c) t := by
  apply subWordAux_cons_nomatch
  intro hcontra
  have hm := hcontra.2
  rw [wordMatchAt_false_of_head_nonword hpat t hc] at hm
  cases hm

theorem subWordAux_prev_irrel {pat rep : List Char}
    (hpat : ∀ x ∈ pat, isWordChar x = true)
    {t : List Char} (hb : ∀ x ∈ t.head?, isWordChar x = false) (p1 p2 : Bool) :
    subWordAux pat rep p1 t = subWordAux pat rep p2 t := by
  cases t with
  | nil => rw [subWordAux_nil, subWordAux_nil]
  | cons d t' =>
    rw [subWordAux_prev_any hpat (hb d rfl) p1, subWordAux_prev_any hpat (hb d rfl) p2]

theorem subWordAux_word_run_true {pat rep : List Char} {w : List Char} (rest : List Char)
    (hw : ∀ c ∈ w, isWordChar c = true) :
    subWordAux pat rep true (w ++ rest) = w ++ subWordAux pat rep true rest := by
  induction w with
  | nil => simp
  | cons c w' ih =>
    rw [List.cons_append]
    rw [subWordAux_cons_nomatch rep (fun h => by exact absurd h.1 (by simp))]
    rw [hw c (by simp)]
    rw [ih (fun x hx => hw x (by simp [hx]))]
    rfl

theorem subWordAux_word_run_false {pat rep : List Char} {w : List Char} (rest : List Char)
    (hw : ∀ c ∈ w, isWordChar c = true) (hne : w ≠ [])
    (hm : wordMatchAt pat (w ++ rest) = false) :
    subWordAux pat rep false (w ++ rest) = w ++ subWordAux pat rep true rest := by
  obtain ⟨c, w', rfl⟩ := List.exists_cons_of_ne_nil hne
  rw [List.cons_append] at hm ⊢
  rw [subWordAux_cons_nomatch rep (fun h => by rw [hm] at h; exact absurd h.2 (by simp))]
  rw [hw c (by simp)]
  rw [subWordAux_word_run_true rest (fun x hx => hw x (by simp [hx]))]
  rfl

theorem subWordAux_replace {pat rep : List Char} {w : List Char} (rest : List Char)
    (hlow : w.map Char.toLower = pat) (hne : w ≠ [])
    (hb : ∀ c ∈ rest.head?, isWordChar c = false) :
    subWordAux pat rep false (w ++ rest) = rep ++ subWordAux pat rep true rest := by
  have hlen : pat.length = w.length := by rw [← hlow]; simp
  have hmatch : wordMatchAt pat (w ++ rest) = true := by
    unfold wordMatchAt
    apply Bool.and_eq_true_iff.mpr
    constructor
    · apply Bool.and_eq_true_iff.mpr
      constructor
      · obtain ⟨c, w', rfl⟩ := List.exists_cons_of_ne_nil hne
        rw [← hlow]
        simp
      · rw [hlen, List.take_left, hlow]
        exact beq_self_eq_true pat
    · rw [hlen, List.drop_left]
      cases hr : rest with
      | nil => rfl
      | cons d rest' =>
        have := hb d (by rw [hr]; rfl)
        simp [this]
  obtain ⟨c, w', rfl⟩ := List.exists_cons_of_ne_nil hne
  rw [List.cons_append] at hmatch ⊢
  rw [subWordAux_cons_match rep hmatch]
  congr 1
  rw [← List.cons_append, hlen, List.drop_left]

theorem wordMatchAt_false_of_run {pat : List Char} {w t : List Char}
    (hpat : ∀ c ∈ pat, isWordChar c = true)
    (hw : ∀ c ∈ w, isWordChar c = true)
    (ht : ∀ c ∈ t.head?, isWordChar c = false)
    (hdiff : w.map Char.toLower ≠ pat) :
    wordMatchAt pat (w ++ t) = false := by
  by_contra hcon
  rw [Bool.not_eq_false] at hcon
  unfold wordMatchAt at hcon
  obtain ⟨h12, h3⟩ := Bool.and_eq_true_iff.mp hcon
  obtain ⟨-, h2⟩ := Bool.and_eq_true_iff.mp h12
  have h2' : ((w ++ t).take pat.length).map Char.toLower = pat := by
    exact beq_iff_eq.mp h2
  rcases Nat.lt_trichotomy pat.length w.length with hlt | heq | hgt
  · -- the trailing boundary character would still lie inside the word run
    have hdrop : (w ++ t).drop pat.length = w.drop pat.length ++ t :=
      List.drop_append_of_le_length (Nat.le_of_lt hlt)
    rw [hdrop, List.drop_eq_getElem_cons hlt, List.cons_append] at h3
    have hmem : w[pat.length] ∈ w := List.getElem_mem _
    have hword := hw _ hmem
    have h3' : (!isWordChar w[pat.length]) = true := h3
    rw [hword] at h3'
    cases h3'
  · rw [heq, List.take_left] at h2'
    exact hdiff h2'
  · -- the pattern would overflow the run into a non-word character
    cases hteq : t with
    | nil =>
      subst hteq
      rw [List.append_nil] at h2'
      rw [List.take_of_length_le (Nat.le_of_lt hgt)] at h2'
      exact hdiff h2'
    | cons d t' =>
      subst hteq
      have hd : isWordChar d = false := ht d rfl
      have hidx : ((w ++ d :: t').take pat.length)[w.length]? = some d := by
        rw [List.getElem?_take, if_pos hgt, List.getElem?_append_right (Nat.le_refl _)]
        simp
      have hpd : pat[w.length]? = some d := by
        rw [← h2', List.getElem?_map, hidx]
        simp [toLower_of_not_word hd]
      have hmem : d ∈ pat := List.getElem?_mem hpd
      have := hpat d hmem
      rw [hd] at this
      cases this

theorem subWordAux_nonword_run {pat rep : List Char}
    (hpat : ∀ x ∈ pat, isWordChar x = true) :
    ∀ (u' : List Char) (c : Char) (rest : List Char) (prev : Bool),
      (∀ x ∈ c :: u', isWordChar x = false) →
      subWordAux pat rep prev ((c :: u') ++ rest) =
        (c :: u') ++ subWordAux pat rep false rest := by
  intro u'
  induction u' with
  | nil =>
    intro c rest prev hu
    rw [List.cons_append, subWordAux_prev_any hpat (hu c (by simp)) prev,
      hu c (by simp)]
    rfl
  | cons d u'' ih =>
    intro c rest prev hu
    rw [List.cons_append, subWordAux_prev_any hpat (hu c (by simp)) prev,
      hu c (by simp)]
    congr 1
    exact ih d rest false (fun x hx => hu x (by simp at hx ⊢; tauto))

/-! ## The scan acts run-by-run -/

/-- Token-level action of one `re.sub` call: a run whose lowercasing equals
the pattern is replaced wholesale, every other run is untouched. -/
def replaceRun (pat rep r : List Char) : List Char :=
  if r.map Char.toLower = pat then rep else r

theorem subWordAux_eq_runs (pat rep : List Char)
    (hpat : ∀ c ∈ pat, isWordChar c = true) (hpne : pat ≠ [])
    (s : List Char) :
    subWordAux pat rep false s = ((runs s).map (replaceRun pat rep)).flatten := by
  cases s with
  | nil => rw [subWordAux_nil, runs_nil]; rfl
  | cons c rest =>
    have hsplit : c :: rest =
        (c :: rest.takeWhile (fun x => isWordChar x == isWordChar c)) ++
          rest.dropWhile (fun x => isWordChar x == isWordChar c) := by
      rw [List.cons_append, List.takeWhile_append_dropWhile]
    have hwrun : ∀ x ∈ c :: rest.takeWhile (fun x => isWordChar x == isWordChar c),
        isWordChar x = isWordChar c := by
      intro x hx
      rcases List.mem_cons.mp hx with rfl | hx
      · rfl
      · simpa using mem_takeWhile_pred hx
    have hheadt : ∀ x ∈ (rest.dropWhile (fun x => isWordChar x == isWordChar c)).head?,
        isWordChar x ≠ isWordChar c := by
      intro x hx
      cases htt : rest.dropWhile (fun x => isWordChar x == isWordChar c) with
      | nil => rw [htt] at hx; simp at hx
      | cons d t' =>
        rw [htt] at hx
        simp only [List.head?_cons, Option.mem_def, Option.some.injEq] at hx
        subst hx
        have := dropWhile_head_not htt
        simpa using this
    rw [runs_cons, List.map_cons, List.flatten_cons]
    by_cases hcw : isWordChar c = true
    · have hw : ∀ x ∈ c :: rest.takeWhile (fun x => isWordChar x == isWordChar c),
          isWordChar x = true := fun x hx => by rw [hwrun x hx, hcw]
      have hbt : ∀ x ∈ (rest.dropWhile (fun x => isWordChar x == isWordChar c)).head?,
          isWordChar x = false := by
        intro x hx
        have hne := hheadt x hx
        rw [hcw] at hne
        cases hb : isWordChar x
        · rfl
        · exact absurd hb hne
      by_cases hmatch :
          (c :: rest.takeWhile (fun x => isWordChar x == isWordChar c)).map Char.toLower = pat
      · rw [hsplit, subWordAux_replace _ hmatch (by simp) hbt]
        rw [subWordAux_prev_irrel hpat hbt true false]
        rw [subWordAux_eq_runs pat rep hpat hpne
          (rest.dropWhile (fun x => isWordChar x == isWordChar c))]
        unfold replaceRun
        rw [if_pos hmatch]
      · rw [hsplit, subWordAux_word_run_false _ hw (by simp)
          (wordMatchAt_false_of_run hpat hw hbt hmatch)]
        rw [subWordAux_prev_irrel hpat hbt true false]
        rw [subWordAux_eq_runs pat rep hpat hpne
          (rest.dropWhile (fun x => isWordChar x == isWordChar c))]
        unfold replaceRun
        rw [if_neg hmatch]
    · have hcwf : isWordChar c = false := by rwa [Bool.not_eq_true] at hcw
      have hwnon : ∀ x ∈ c :: rest.takeWhile (fun x => isWordChar x == isWordChar c),
          isWordChar x = false := fun x hx => by rw [hwrun x hx, hcwf]
      rw [hsplit]
      rw [subWordAux_nonword_run hpat
        (rest.takeWhile (fun x => isWordChar x == isWordChar c)) c
        (rest.dropWhile (fun x => isWordChar x == isWordChar c)) false hwnon]
      rw [subWordAux_eq_runs pat rep hpat hpne
        (rest.dropWhile (fun x => isWordChar x == isWordChar c))]
      unfold replaceRun
      rw [if_neg ?_]
      intro habs
      cases hpeq : pat with
      | nil => exact hpne hpeq
      | cons p pat' =>
        rw [hpeq, List.map_cons] at habs
        have hcp : c.toLower = p := (List.cons.injEq _ _ _ _ ▸ habs).1
        have := word_of_toLower_word (hpat p (by rw [hpeq]; simp)) hcp
        rw [hcwf] at this
        cases this
termination_by s.length
decreasing_by
  all_goals
    simp only [List.length_cons]
    exact Nat.lt_succ_of_le (length_dropWhile_le _ _)

theorem runClass_true_of_match {pat r : List Char}
    (hpat : ∀ c ∈ pat, isWordChar c = true) (hpne : pat ≠ [])
    (hm : r.map Char.toLower = pat) : runClass r = true := by
  obtain ⟨p, pat', hpeq⟩ := List.exists_cons_of_ne_nil hpne
  cases r with
  | nil => rw [hpeq] at hm; simp at hm
  | cons a r' =>
    rw [hpeq, List.map_cons] at hm
    have hap : a.toLower = p := (List.cons.injEq _ _ _ _ ▸ hm).1
    have ha : isWordChar a = true :=
      word_of_toLower_word (hpat p (by rw [hpeq]; simp)) hap
    simpa [runClass] using ha

theorem replaceRun_ne_nil {pat rep r : List Char} (hrne : rep ≠ [])
    (hr : r ≠ []) : replaceRun pat rep r ≠ [] := by
  unfold replaceRun
  by_cases hm : r.map Char.toLower = pat
  · rw [if_pos hm]; exact hrne
  · rw [if_neg hm]; exact hr

theorem replaceRun_class {pat rep r : List Char}
    (hpat : ∀ c ∈ pat, isWordChar c = true) (hpne : pat ≠ [])
    (hrep : ∀ c ∈ rep, isWordChar c = true) (hrne : rep ≠ []) :
    runClass (replaceRun pat rep r) = runClass r := by
  unfold replaceRun
  by_cases hm : r.map Char.toLower = pat
  · rw [if_pos hm, runClass_true_of_match hpat hpne hm]
    obtain ⟨e, rep', rfl⟩ := List.exists_cons_of_ne_nil hrne
    simpa [runClass] using hrep e (by simp)
  · rw [if_neg hm]

theorem replaceRun_uniform {pat rep r : List Char}
    (hpat : ∀ c ∈ pat, isWordChar c = true) (hpne : pat ≠ [])
    (hrep : ∀ c ∈ rep, isWordChar c = true) (hrne : rep ≠ [])
    (hu : ∀ c ∈ r, isWordChar c = runClass r) :
    ∀ c ∈ replaceRun pat rep r, isWordChar c = runClass (replaceRun pat rep r) := by
  rw [replaceRun_class hpat hpne hrep hrne]
  unfold replaceRun
  by_cases hm : r.map Char.toLower = pat
  · rw [if_pos hm]
    intro x hx
    rw [hrep x hx, runClass_true_of_match hpat hpne hm]
  · rw [if_neg hm]
    exact hu

theorem runs_map_replace (pat rep : List Char)
    (hpat : ∀ c ∈ pat, isWordChar c = true) (hpne : pat ≠ [])
    (hrep : ∀ c ∈ rep, isWordChar c = true) (hrne : rep ≠ [])
    (s : List Char) :
    runs (((runs s).map (replaceRun pat rep)).flatten) =
      (runs s).map (replaceRun pat rep) := by
  apply runs_of_flatten
  · intro r hr
    obtain ⟨r₀, hr₀, rfl⟩ := List.mem_map.mp hr
    exact replaceRun_ne_nil hrne (runs_ne_nil s r₀ hr₀)
  · intro r hr
    obtain ⟨r₀, hr₀, rfl⟩ := List.mem_map.mp hr
    exact replaceRun_uniform hpat hpne hrep hrne (runs_uniform s r₀ hr₀)
  · rw [List.chain'_map]
    apply (runs_chain s).imp
    intro a b hab
    rw [replaceRun_class hpat hpne hrep hrne, replaceRun_class hpat hpne hrep hrne]
    exact hab

/-! ## Source embedding: `normalize_transcript` (src/voicebot/conversation.py) -/

/-- The variant list of `normalize_transcript`, in source order. -/
def variantsPy : List String :=
  ["claria", "glaria", "glarvia", "clarvia", "clavia", "klaria", "klavia"]

/-- One loop iteration of `normalize_transcript`:
`out = re.sub(rf"\b{re.escape(wrong)}\b", "Klarvia", out, flags=re.IGNORECASE)`.
The variants contain no regex metacharacters, so `re.escape` is the identity
on them. -/
def pySubWord (wrong : String) (s : String) : String :=
  String.mk (subWordAux wrong.data "Klarvia".data false s.data)

/-- Embedding of `normalize_transcript`: empty text is returned unchanged,
otherwise every known variant is rewritten, in source order. -/
def normalize_transcript (text : String) : String :=
  if text = "" then text
  else variantsPy.foldl (fun out wrong => pySubWord wrong out) text

/-- Character-list form of the variant chain. -/
def normalizeL (s : List Char) : List Char :=
  variantsPy.foldl (fun out wrong => subWordAux wrong.data "Klarvia".data false out) s

theorem foldl_pySubWord_data (vs : List String) (t : String) :
    (vs.foldl (fun out wrong => pySubWord wrong out) t).data =
      vs.foldl (fun out wrong => subWordAux wrong.data "Klarvia".data false out) t.data := by
  induction vs generalizing t with
  | nil => rfl
  | cons v vs' ih =>
    rw [List.foldl_cons, List.foldl_cons]
    rw [ih (pySubWord v t)]
    rfl

theorem normalize_transcript_data {text : String} (h : ¬ text = "") :
    (normalize_transcript text).data = normalizeL text.data := by
  unfold normalize_transcript normalizeL
  rw [if_neg h]
  exact foldl_pySubWord_data variantsPy text

theorem variants_word :
    ∀ v ∈ variantsPy, (∀ c ∈ v.data, isWordChar c = true) ∧ v.data ≠ [] := by
  decide

theorem krep_word : ∀ c ∈ ("Klarvia" : String).data, isWordChar c = true := by decide

theorem krep_ne : ("Klarvia" : String).data ≠ [] := by decide

theorem krep_lower_not_variant :
    ∀ v ∈ variantsPy, ("Klarvia" : String).data.map Char.toLower ≠ v.data := by decide

/-- Per-run action of the whole variant chain. -/
def replaceRunChain (vs : List String) (r : List Char) : List Char :=
  vs.foldl (fun acc v => replaceRun v.data ("Klarvia" : String).data acc) r

theorem foldSub_runs (vs : List String)
    (hvs : ∀ v ∈ vs, (∀ c ∈ v.data, isWordChar c = true) ∧ v.data ≠ []) :
    ∀ s : List Char,
      vs.foldl (fun out v => subWordAux v.data "Klarvia".data false out) s =
        ((runs s).map (replaceRunChain vs)).flatten := by
  induction vs with
  | nil =>
    intro s
    simp only [List.foldl_nil]
    have : (runs s).map (replaceRunChain []) = runs s :=
      List.map_congr_left (fun r _ => rfl) |>.trans (List.map_id _)
    rw [this, runs_flatten]
  | cons v vs' ih =>
    intro s
    rw [List.foldl_cons]
    have hv := hvs v (by simp)
    rw [show subWordAux v.data "Klarvia".data false s =
        ((runs s).map (replaceRun v.data "Klarvia".data)).flatten from
      subWordAux_eq_runs v.data "Klarvia".data hv.1 hv.2 s]
    rw [ih (fun v' hv' => hvs v' (by simp [hv']))]
    rw [runs_map_replace v.data "Klarvia".data hv.1 hv.2 krep_word krep_ne s]
    rw [List.map_map]
    rfl

theorem normalizeL_runs (s : List Char) :
    normalizeL s = ((runs s).map (replaceRunChain variantsPy)).flatten :=
  foldSub_runs variantsPy variants_word s

theorem replaceRunChain_nomatch (vs : List String) (r : List Char)
    (h : ∀ v ∈ vs, r.map Char.toLower ≠ v.data) : replaceRunChain vs r = r := by
  induction vs with
  | nil => rfl
  | cons v vs' ih =>
    unfold replaceRunChain at *
    rw [List.foldl_cons]
    rw [show replaceRun v.data ("Klarvia" : String).data r = r from by
      unfold replaceRun; rw [if_neg (h v (by simp))]]
    exact ih (fun v' hv' => h v' (by simp [hv']))

theorem replaceRunChain_result (vs : List String) (r : List Char)
    (hk : ∀ v ∈ vs, ("Klarvia" : String).data.map Char.toLower ≠ v.data) :
    replaceRunChain vs r = r ∨
      (replaceRunChain vs r = ("Klarvia" : String).data ∧
        ∃ v ∈ vs, r.map Char.toLower = v.data) := by
  induction vs with
  | nil => exact Or.inl rfl
  | cons v vs' ih =>
    unfold replaceRunChain at *
    rw [List.foldl_cons]
    by_cases hm : r.map Char.toLower = v.data
    · right
      rw [show replaceRun v.data ("Klarvia" : String).data r = ("Klarvia" : String).data from by
        unfold replaceRun; rw [if_pos hm]]
      constructor
      · exact replaceRunChain_nomatch vs' _ (fun v' hv' => hk v' (by simp [hv']))
      · exact ⟨v, by simp, hm⟩
    · rw [show replaceRun v.data ("Klarvia" : String).data r = r from by
        unfold replaceRun; rw [if_neg hm]]
      rcases ih (fun v' hv' => hk v' (by simp [hv'])) with h | ⟨h1, v', hv', hm'⟩
      · exact Or.inl h
      · exact Or.inr ⟨h1, v', by simp [hv'], hm'⟩

theorem replaceRunChain_class (r : List Char) :
    runClass (replaceRunChain variantsPy r) = runClass r := by
  rcases replaceRunChain_result variantsPy r krep_lower_not_variant with h | ⟨h, v, hv, hm⟩
  · rw [h]
  · rw [h]
    have hcv := variants_word v hv
    rw [runClass_true_of_match hcv.1 hcv.2 hm]
    decide

theorem replaceRunChain_ne_nil {r : List Char} (h : r ≠ []) :
    replaceRunChain variantsPy r ≠ [] := by
  rcases replaceRunChain_result variantsPy r krep_lower_not_variant with heq | ⟨heq, -⟩
  · rw [heq]; exact h
  · rw [heq]; exact krep_ne

theorem replaceRunChain_uniform (r : List Char)
    (hu : ∀ c ∈ r, isWordChar c = runClass r) :
    ∀ c ∈ replaceRunChain variantsPy r,
      isWordChar c = runClass (replaceRunChain variantsPy r) := by
  rw [replaceRunChain_class]
  rcases replaceRunChain_result variantsPy r krep_lower_not_variant with heq | ⟨heq, v, hv, hm⟩
  · rw [heq]; exact hu
  · rw [heq]
    intro x hx
    have hcv := variants_word v hv
    rw [krep_word x hx, runClass_true_of_match hcv.1 hcv.2 hm]

theorem runs_map_chain (s : List Char) :
    runs (((runs s).map (replaceRunChain variantsPy)).flatten) =
      (runs s).map (replaceRunChain variantsPy) := by
  apply runs_of_flatten
  · intro r hr
    obtain ⟨r₀, hr₀, rfl⟩ := List.mem_map.mp hr
    exact replaceRunChain_ne_nil (runs_ne_nil s r₀ hr₀)
  · intro r hr
    obtain ⟨r₀, hr₀, rfl⟩ := List.mem_map.mp hr
    exact replaceRunChain_uniform r₀ (runs_uniform s r₀ hr₀)
  · rw [List.chain'_map]
    apply (runs_chain s).imp
    intro a b hab
    rw [replaceRunChain_class, replaceRunChain_class]
    exact hab

theorem replaceRunChain_idem (r : List Char) :
    replaceRunChain variantsPy (replaceRunChain variantsPy r) =
      replaceRunChain variantsPy r := by
  rcases replaceRunChain_result variantsPy r krep_lower_not_variant with h | ⟨h, -⟩
  · rw [h]
    exact h
  · rw [h]
    exact replaceRunChain_nomatch variantsPy _ krep_lower_not_variant

theorem normalizeL_not_nil {s : List Char} (h : s ≠ []) : normalizeL s ≠ [] := by
  rw [normalizeL_runs]
  obtain ⟨c, rest, rfl⟩ := List.exists_cons_of_ne_nil h
  rw [runs_cons, List.map_cons, List.flatten_cons]
  exact List.append_ne_nil_of_left_ne_nil (replaceRunChain_ne_nil (by simp)) _

/-! ## Claim C5: idempotence of the normalizer -/

set_option maxHeartbeats 2000000

/-- C5.  For every input string `x`,
`normalize_transcript (normalize_transcript x) = normalize_transcript x`:
applying the transcript normalizer of `src/voicebot/conversation.py` to
already-normalized text is a no-op. -/
theorem C5_normalize_transcript_idempotent (x : String) :
    normalize_transcript (normalize_transcript x) = normalize_transcript x := by
  by_cases hx : x = ""
  · subst hx
    rfl
  · have hxd : x.data ≠ [] := fun h => hx (String.ext (by rw [h]))
    have hy : ¬ normalize_transcript x = "" := by
      intro habs
      have hd := normalize_transcript_data hx
      rw [habs] at hd
      exact normalizeL_not_nil hxd hd.symm
    apply String.ext
    rw [normalize_transcript_data hy, normalize_transcript_data hx]
    rw [normalizeL_runs x.data]
    rw [normalizeL_runs (((runs x.data).map (replaceRunChain variantsPy)).flatten)]
    rw [runs_map_chain x.data]
    rw [List.map_map]
    have hcomp : (runs x.data).map (replaceRunChain variantsPy ∘ replaceRunChain variantsPy) =
        (runs x.data).map (replaceRunChain variantsPy) := by
      apply List.map_congr_left
      intro r hr
      rw [Function.comp_apply]
      exact replaceRunChain_idem r
    rw [hcomp]

set_option maxHeartbeats 400000

/-! ## Claim C6: word-boundary replacement, everything else untouched -/

/-- A text none of whose maximal word-class runs is, case-insensitively, a
known misrecognition variant. -/
def untouchedRuns (l : List Char) : Prop :=
  ∀ r ∈ runs l, ∀ v ∈ variantsPy, r.map Char.toLower ≠ v.data

instance (l : List Char) : Decidable (untouchedRuns l) := by
  unfold untouchedRuns
  infer_instance

theorem normalizeL_untouched {l : List Char} (h : untouchedRuns l) :
    normalizeL l = l := by
  rw [normalizeL_runs]
  have hmap : (runs l).map (replaceRunChain variantsPy) = runs l := by
    have := List.map_congr_left
      (fun r hr => replaceRunChain_nomatch variantsPy r (h r hr))
    rw [this, List.map_id']
  rw [hmap, runs_flatten]

theorem replaceRunChain_match (vs : List String) (w : List Char) (v : String)
    (hv : v ∈ vs) (hm : w.map Char.toLower = v.data)
    (hk : ∀ v' ∈ vs, ("Klarvia" : String).data.map Char.toLower ≠ v'.data) :
    replaceRunChain vs w = ("Klarvia" : String).data := by
  induction vs with
  | nil => simp at hv
  | cons v₀ vs' ih =>
    unfold replaceRunChain
    rw [List.foldl_cons]
    by_cases hm0 : w.map Char.toLower = v₀.data
    · rw [show replaceRun v₀.data ("Klarvia" : String).data w =
          ("Klarvia" : String).data from by unfold replaceRun; rw [if_pos hm0]]
      exact replaceRunChain_nomatch vs' _ (fun v' hv' => hk v' (by simp [hv']))
    · rcases List.mem_cons.mp hv with rfl | hv'
      · exact absurd hm hm0
      · rw [show replaceRun v₀.data ("Klarvia" : String).data w = w from by
          unfold replaceRun; rw [if_neg hm0]]
        exact ih hv' (fun v' hv'' => hk v' (by simp [hv'']))

theorem flatten_getLast? (rs : List (List Char)) (hne : ∀ r ∈ rs, r ≠ []) :
    ∀ r, rs.getLast? = some r → rs.flatten.getLast? = r.getLast? := by
  induction rs with
  | nil => intro r hr; simp at hr
  | cons a rs' ih =>
    intro r hr
    cases rs' with
    | nil =>
      rw [List.getLast?_singleton] at hr
      cases hr
      simp
    | cons b rs'' =>
      rw [List.getLast?_cons_cons] at hr
      rw [List.flatten_cons, List.getLast?_append]
      rw [ih (fun x hx => hne x (by simp [hx])) r hr]
      have hrne : r ≠ [] := hne r (by
        have : r ∈ b :: rs'' := List.mem_of_mem_getLast? (by rw [Option.mem_def]; exact hr)
        simp [this])
      cases hrl : r.getLast? with
      | none => exact absurd (List.getLast?_eq_none_iff.mp hrl) hrne
      | some y => rfl

theorem runs_append_word (p w q : List Char)
    (hw : ∀ c ∈ w, isWordChar c = true) (hwne : w ≠ [])
    (hp : ∀ d, p.getLast? = some d → isWordChar d = false)
    (hq : ∀ d, q.head? = some d → isWordChar d = false) :
    runs (p ++ w ++ q) = runs p ++ w :: runs q := by
  have hclassw : runClass w = true := by
    obtain ⟨c, w', rfl⟩ := List.exists_cons_of_ne_nil hwne
    simpa [runClass] using hw c (by simp)
  have hflat : (runs p ++ w :: runs q).flatten = p ++ w ++ q := by
    rw [List.flatten_append, List.flatten_cons, runs_flatten, runs_flatten]
    rw [List.append_assoc]
  rw [← hflat]
  apply runs_of_flatten
  · intro r hr
    rcases List.mem_append.mp hr with hr | hr
    · exact runs_ne_nil p r hr
    · rcases List.mem_cons.mp hr with rfl | hr
      · exact hwne
      · exact runs_ne_nil q r hr
  · intro r hr
    rcases List.mem_append.mp hr with hr | hr
    · exact runs_uniform p r hr
    · rcases List.mem_cons.mp hr with rfl | hr
      · intro c hc
        rw [hw c hc, hclassw]
      · exact runs_uniform q r hr
  · rw [List.chain'_append]
    refine ⟨runs_chain p, ?_, ?_⟩
    · rw [List.chain'_cons']
      refine ⟨?_, runs_chain q⟩
      intro y hy
      cases q with
      | nil => rw [runs_nil] at hy; simp at hy
      | cons d q' =>
        rw [runs_cons] at hy
        simp only [List.head?_cons, Option.mem_def, Option.some.injEq] at hy
        subst hy
        have hd : isWordChar d = false := hq d rfl
        rw [hclassw]
        simp [runClass, hd]
    · intro x hx y hy
      simp only [List.head?_cons, Option.mem_def, Option.some.injEq] at hy
      subst hy
      rw [hclassw]
      have hxlast := flatten_getLast? (runs p) (runs_ne_nil p) x
        (Option.mem_def.mp hx)
      rw [runs_flatten] at hxlast
      have hxne : x ≠ [] := runs_ne_nil p x
        (List.mem_of_mem_getLast? hx)
      cases hxl : x.getLast? with
      | none => exact absurd (List.getLast?_eq_none_iff.mp hxl) hxne
      | some d =>
        have hdlast : p.getLast? = some d := by rw [hxlast, hxl]
        have hdfalse : isWordChar d = false := hp d hdlast
        have hdx : d ∈ x := List.mem_of_mem_getLast? (by rw [Option.mem_def]; exact hxl)
        have := runs_uniform p x (List.mem_of_mem_getLast? hx) d hdx
        rw [hdfalse] at this
        rw [← this]
        simp

/-- C6.  The transcript normalizer of `src/voicebot/conversation.py`:
(1) returns empty input unchanged; (2) replaces any case variant `w` of a
known misrecognition variant `v` occurring at word boundaries with the
canonical `"Klarvia"`, leaving untouched surrounding text untouched; and
(3) leaves any text with no whole-word variant occurrence (in particular any
partial-word occurrence) completely unchanged. -/
theorem C6_normalize_transcript_word_boundary :
    normalize_transcript "" = "" ∧
    (∀ v ∈ variantsPy, ∀ w p q : List Char,
      w.map Char.toLower = v.data →
      (p.getLast?.all fun d => !isWordChar d) = true →
      (q.head?.all fun d => !isWordChar d) = true →
      untouchedRuns p → untouchedRuns q →
      (normalize_transcript (String.mk (p ++ w ++ q))).data =
        p ++ ("Klarvia" : String).data ++ q) ∧
    (∀ s : String, untouchedRuns s.data → normalize_transcript s = s) := by
  refine ⟨rfl, ?_, ?_⟩
  · intro v hv w p q hwv hpb hqb hup huq
    have hvprops := variants_word v hv
    have hwne : w ≠ [] := by
      intro h
      rw [h] at hwv
      exact hvprops.2 hwv.symm
    have hword : ∀ c ∈ w, isWordChar c = true := by
      intro c hc
      have hmem : c.toLower ∈ v.data := by
        rw [← hwv]
        exact List.mem_map_of_mem _ hc
      exact word_of_toLower_word (hvprops.1 _ hmem) rfl
    have hp' : ∀ d, p.getLast? = some d → isWordChar d = false := by
      intro d hd
      rw [hd] at hpb
      simpa using hpb
    have hq' : ∀ d, q.head? = some d → isWordChar d = false := by
      intro d hd
      rw [hd] at hqb
      simpa using hqb
    have hmkne : ¬ String.mk (p ++ w ++ q) = "" := by
      intro habs
      have hdata : p ++ w ++ q = ([] : List Char) := congrArg String.data habs
      rw [List.append_eq_nil] at hdata
      rw [List.append_eq_nil] at hdata
      exact hwne hdata.1.2
    rw [normalize_transcript_data hmkne]
    show normalizeL (p ++ w ++ q) = _
    rw [normalizeL_runs]
    rw [runs_append_word p w q hword hwne hp' hq']
    rw [List.map_append, List.map_cons, List.flatten_append, List.flatten_cons]
    have hmp : (runs p).map (replaceRunChain variantsPy) = runs p := by
      have := List.map_congr_left
        (fun r hr => replaceRunChain_nomatch variantsPy r (hup r hr))
      rw [this, List.map_id']
    have hmq : (runs q).map (replaceRunChain variantsPy) = runs q := by
      have := List.map_congr_left
        (fun r hr => replaceRunChain_nomatch variantsPy r (huq r hr))
      rw [this, List.map_id']
    rw [hmp, hmq, runs_flatten, runs_flatten]
    rw [replaceRunChain_match variantsPy w v hv hwv krep_lower_not_variant]
    rw [List.append_assoc]
  · intro s hs
    by_cases hse : s = ""
    · rw [hse]; rfl
    · apply String.ext
      rw [normalize_transcript_data hse]
      exact normalizeL_untouched hs

/-- Witness for C6 at a concrete input: the prefix and suffix around the
misheard `"Claria"` end and begin with non-word characters, so the variant
is rewritten and the surrounding text is untouched. -/
theorem C6_witness :
    (normalize_transcript (String.mk ("hi ".data ++ "Claria".data ++ ", bye".data))).data =
      "hi ".data ++ ("Klarvia" : String).data ++ ", bye".data :=
  C6_normalize_transcript_word_boundary.2.1 "claria" (by decide) "Claria".data
    "hi ".data ", bye".data (by decide) (by decide) (by decide) (by decide) (by decide)

/-! ## Source embedding: the Stage Timer (src/voicebot/monitoring.py) -/

/-- One record of `pipeline_state`.  The Python key `"end"` is the field
`stop` (`end` is reserved in Lean); timestamps are modelled as integers and
Python `None` as `Option.none`. -/
structure StageRec where
  start : Option Int
  stop : Option Int
  duration : Option Int
  success : Option Bool
  msg : Option String
deriving Repr, DecidableEq

/-- The module-level `pipeline_state` dict, keyed by stage name. -/
def PipelineState := String → Option StageRec

def emptyPipeline : PipelineState := fun _ => none

/-- Python dict assignment `pipeline_state[stage] = rec`. -/
def setStage (st : PipelineState) (stage : String) (rec : StageRec) : PipelineState :=
  fun n => if n = stage then some rec else st n

/-- Embedding of `stage_start(stage)`: records the wall-clock start `t`,
resets the other fields, and returns the timestamp. -/
def stage_start (st : PipelineState) (stage : String) (t : Int) : Int × PipelineState :=
  (t, setStage st stage ⟨some t, none, none, none, none⟩)

/-- Embedding of `stage_end(stage, success, msg)`: reads the prior record
(`{}` when none exists) and its `start` (when present); the duration is
`t - start` guarded by Python truthiness, under which both `None` and a
zero timestamp yield `None`.  Returns the end timestamp. -/
def stage_end (st : PipelineState) (stage : String) (t : Int) (success : Bool)
    (msg : Option String) : Int × PipelineState :=
  let start := (st stage).bind (fun r => r.start)
  let dur : Option Int :=
    match start with
    | none => none
    | some s => if s = 0 then none else some (t - s)
  (t, setStage st stage ⟨start, some t, dur, some success, msg⟩)

/-- Embedding of `debug_report()`: a copy of the current state (in the pure
model, the state itself). -/
def debug_report (st : PipelineState) : PipelineState := st

/-! ## Claim C9: `stage_end` without a prior `stage_start` -/

/-- C9.  For every stage name, calling `stage_end(name)` without a prior
`start(name)` stores a record for that name whose duration is null and
returns the end timestamp; the operation is a total function of the state
(no Stage Timer operation can raise in this model, all are total by
construction). -/
theorem C9_stage_end_without_start (st : PipelineState) (name : String) (t : Int)
    (success : Bool) (msg : Option String) (h : st name = none) :
    (stage_end st name t success msg).1 = t ∧
    (stage_end st name t success msg).2 name =
      some ⟨none, some t, none, some success, msg⟩ := by
  unfold stage_end setStage
  simp [h]

/-- Witness for C9 on the empty state. -/
theorem C9_witness :
    (stage_end emptyPipeline "STT" 5 true none).1 = 5 ∧
    (stage_end emptyPipeline "STT" 5 true none).2 "STT" =
      some ⟨none, some 5, none, some true, none⟩ :=
  C9_stage_end_without_start emptyPipeline "STT" 5 true none rfl

/-! ## Source embedding: `handle_conversation` (src/voicebot/conversation.py)

External collaborators are modelled by their observable outcomes:
`subprocess.run` for the KLARVIA_MODEL_CMD variant, `requests.post` for the
AI_CHAT_URL variant, the `klarvia_voice_bot.infer` shim, and the
OpenAI-backed `ConversationManager`.  Environment variables use `""` for
unset; both are falsy in the source truthiness tests. -/

/-- Python `str.strip()` on the whitespace class of `Char.isWhitespace`. -/
def pyStrip (s : String) : String :=
  String.mk (((s.data.dropWhile Char.isWhitespace).reverse.dropWhile
    Char.isWhitespace).reverse)

/-- Outcome of `subprocess.run(cmd, ...)`: a completed process with exit
code and decoded standard output, or a raised exception (timeout included). -/
inductive CmdOutcome
  | completed (returncode : Int) (stdout : String)
  | raised
deriving Repr, DecidableEq

/-- Outcome of `requests.post(ai_chat_url, ...)`: `ok` is `r.ok` (2xx), and
`out` is the text produced by the JSON-extraction block
(`data.get("reply") or data.get("text") or data.get("output") or ""`, a
bare string body, or the raw text on parse failure) before `.strip()`. -/
structure HttpOutcome where
  ok : Bool
  out : String
deriving Repr, DecidableEq

/-- Outcome of importing `klarvia_voice_bot` and calling `infer(text)`. -/
inductive ShimOutcome
  | noModule
  | importRaised
  | noInfer
  | inferRaised
  | inferNonStr
  | inferReturned (s : String)
deriving Repr, DecidableEq

/-- Process environment and collaborator behaviour for one
`handle_conversation` call. -/
structure ReplyEnv where
  klarviaModelCmd : String
  cmdOutcome : CmdOutcome
  aiChatUrl : String
  requestsAvailable : Bool
  httpOutcome : Option HttpOutcome
  shim : ShimOutcome
  openaiApiKey : String
  openaiSdkAvailable : Bool
  openaiResponse : String
deriving Repr, DecidableEq

/-- Variant 1, KLARVIA_MODEL_CMD (`some` = this variant returns, `none` =
fall through): non-zero exit, a raised exception (timeout), and empty
stripped stdout all fall through. -/
def tryCmd (env : ReplyEnv) : Option String :=
  if env.klarviaModelCmd ≠ "" then
    match env.cmdOutcome with
    | .completed rc out =>
      if rc = 0 then (if (pyStrip out) ≠ "" then some (pyStrip out) else none) else none
    | .raised => none
  else none

/-- Variant 2, AI_CHAT_URL: an `ok` response returns its stripped text even
when that text is empty; a non-2xx status, a network error and a missing
`requests` module fall through. -/
def tryHttp (env : ReplyEnv) : Option String :=
  if env.aiChatUrl ≠ "" then
    if env.requestsAvailable then
      match env.httpOutcome with
      | some h => if h.ok then some (pyStrip h.out) else none
      | none => none
    else none
  else none

/-- Variant 3, the `klarvia_voice_bot.infer` shim: only a string result
whose strip is non-empty returns. -/
def tryShim (env : ReplyEnv) : Option String :=
  match env.shim with
  | .inferReturned s => if (pyStrip s) ≠ "" then some (pyStrip s) else none
  | _ => none

/-- Embedding of `handle_conversation(transcript)`.  `some r` models a
normal return of `r`; `none` models the single uncaught exception path
(`ConversationManager.__init__` raising when OPENAI_API_KEY is set but the
openai package is unavailable). -/
def handle_conversation (env : ReplyEnv) (transcript : String) : Option String :=
  if pyStrip transcript = "" then some "" else
  match tryCmd env with
  | some r => some r
  | none =>
  match tryHttp env with
  | some r => some r
  | none =>
  match tryShim env with
  | some r => some r
  | none =>
  if env.openaiApiKey ≠ "" then
    (if env.openaiSdkAvailable then some env.openaiResponse else none)
  else some ""

/-! ## Claim C4: the reply-adapter fallback chain -/

/-- One attempt in the explicit fallback list: `win r` ends the chain with
reply `r`, `fail` falls through to the next variant, `raiseE` aborts. -/
inductive Attempt
  | win (r : String)
  | fail
  | raiseE
deriving Repr, DecidableEq

/-- Spec-level command attempt: wins only with zero exit and non-empty
stripped stdout. -/
def cmdAttempt (env : ReplyEnv) : Attempt :=
  if env.klarviaModelCmd = "" then .fail else
  match env.cmdOutcome with
  | .completed rc out =>
    if rc = 0 then (if (pyStrip out) = "" then .fail else .win (pyStrip out)) else .fail
  | .raised => .fail

/-- Spec-level HTTP attempt: wins with any 2xx response, even one whose
extracted text is empty. -/
def httpAttempt (env : ReplyEnv) : Attempt :=
  if env.aiChatUrl = "" then .fail else
  if env.requestsAvailable then
    match env.httpOutcome with
    | some h => if h.ok then .win (pyStrip h.out) else .fail
    | none => .fail
  else .fail

/-- Spec-level shim attempt: wins only with a string of non-empty strip. -/
def shimAttempt (env : ReplyEnv) : Attempt :=
  match env.shim with
  | .inferReturned s => if (pyStrip s) = "" then .fail else .win (pyStrip s)
  | _ => .fail

/-- Spec-level OpenAI attempt: wins with whatever the chat client returned
whenever a key is configured and the SDK imports; raises when the key is
configured but the SDK is unavailable. -/
def openaiAttempt (env : ReplyEnv) : Attempt :=
  if env.openaiApiKey = "" then .fail
  else if env.openaiSdkAvailable then .win env.openaiResponse
  else .raiseE

/-- First-win traversal of the ordered attempt list; an exhausted list
yields the empty reply. -/
def runChain : List Attempt → Option String
  | [] => some ""
  | .win r :: _ => some r
  | .fail :: rest => runChain rest
  | .raiseE :: _ => none

/-- The reply chain as the amended claim words it: an explicit ordered list
of variant attempts, each attempted at most once, first win ends the chain,
empty string when every variant fails.  Written from the amended spec text,
to be compared with `handle_conversation`. -/
def replyChainSpec (env : ReplyEnv) (t : String) : Option String :=
  if (pyStrip t) = "" then some "" else
  runChain [cmdAttempt env, httpAttempt env, shimAttempt env, openaiAttempt env]

theorem cmdAttempt_eq (env : ReplyEnv) :
    cmdAttempt env =
      (match tryCmd env with | some r => Attempt.win r | none => Attempt.fail) := by
  unfold cmdAttempt tryCmd
  by_cases h1 : env.klarviaModelCmd = ""
  · simp [h1]
  · cases env.cmdOutcome with
    | raised => simp [h1]
    | completed rc out =>
      by_cases h2 : rc = 0
      · by_cases h3 : (pyStrip out) = "" <;> simp [h1, h2, h3]
      · simp [h1, h2]

theorem httpAttempt_eq (env : ReplyEnv) :
    httpAttempt env =
      (match tryHttp env with | some r => Attempt.win r | none => Attempt.fail) := by
  unfold httpAttempt tryHttp
  by_cases h1 : env.aiChatUrl = ""
  · simp [h1]
  · by_cases h2 : env.requestsAvailable
    · cases env.httpOutcome with
      | none => simp [h1, h2]
      | some h => by_cases h3 : h.ok <;> simp [h1, h2, h3]
    · simp [h1, h2]

theorem shimAttempt_eq (env : ReplyEnv) :
    shimAttempt env =
      (match tryShim env with | some r => Attempt.win r | none => Attempt.fail) := by
  unfold shimAttempt tryShim
  cases env.shim with
  | inferReturned s => by_cases h3 : (pyStrip s) = "" <;> simp [h3]
  | noModule => rfl
  | importRaised => rfl
  | noInfer => rfl
  | inferRaised => rfl
  | inferNonStr => rfl

/-- C4 (amended).  For every transcript: the reply chain equals the explicit
ordered first-win list of variant attempts (command wins on zero exit with
non-empty output, HTTP wins on any 2xx response even with empty text, shim
wins on non-empty text, OpenAI wins whenever a key is configured and the
SDK loads; exhaustion yields the empty string); and when the configured
local-command variant exits non-zero or times out, the chain behaves
exactly as if that variant were not configured, attempting the next
configured variant instead of surfacing a failure. -/
theorem C4_reply_chain_fallthrough (env : ReplyEnv) (t : String) :
    handle_conversation env t = replyChainSpec env t ∧
    (((∃ rc out, env.cmdOutcome = CmdOutcome.completed rc out ∧ rc ≠ 0) ∨
        env.cmdOutcome = CmdOutcome.raised) →
      handle_conversation env t =
        handle_conversation { env with klarviaModelCmd := "" } t) := by
  constructor
  · unfold handle_conversation replyChainSpec
    by_cases ht : (pyStrip t) = ""
    · rw [if_pos ht, if_pos ht]
    · rw [if_neg ht, if_neg ht]
      rw [cmdAttempt_eq, httpAttempt_eq, shimAttempt_eq]
      cases tryCmd env with
      | some r => rfl
      | none =>
        cases tryHttp env with
        | some r => rfl
        | none =>
          cases tryShim env with
          | some r => rfl
          | none =>
            show (if env.openaiApiKey ≠ "" then
                (if env.openaiSdkAvailable = true then some env.openaiResponse else none)
              else some "") = runChain [openaiAttempt env]
            unfold openaiAttempt
            by_cases hk : env.openaiApiKey = ""
            · simp [runChain, hk]
            · by_cases hs : env.openaiSdkAvailable <;> simp [runChain, hk, hs]
  · intro hfail
    have hcmd : tryCmd env = none := by
      unfold tryCmd
      rcases hfail with ⟨rc, out, heq, hrc⟩ | heq
      · rw [heq]
        by_cases h1 : env.klarviaModelCmd ≠ ""
        · rw [if_pos h1]
          simp only [if_neg hrc]
        · rw [if_neg h1]
      · rw [heq]
        by_cases h1 : env.klarviaModelCmd ≠ ""
        · rw [if_pos h1]
        · rw [if_neg h1]
    have hcmd' : tryCmd { env with klarviaModelCmd := "" } = none := by
      unfold tryCmd
      rw [if_neg (by simp)]
    unfold handle_conversation
    rw [hcmd, hcmd']
    rfl

/-- Configuration refuting the original C4 wording: the command variant
fails with exit code 1, the HTTP variant answers 200 with empty text, and
the shim variant would produce non-empty text. -/
def envCex : ReplyEnv :=
  { klarviaModelCmd := "mymodel"
  , cmdOutcome := .completed 1 ""
  , aiChatUrl := "http://localhost:9999/chat"
  , requestsAvailable := true
  , httpOutcome := some { ok := true, out := "" }
  , shim := .inferReturned "Hello there"
  , openaiApiKey := ""
  , openaiSdkAvailable := false
  , openaiResponse := "" }

/-- Counterexample to C4 as stated: with `envCex` the chain returns the
empty string from the 2xx-but-empty HTTP response and never reaches the
shim variant, although the shim is the first variant producing non-empty
text (`"Hello there"`). -/
theorem C4_counterexample :
    handle_conversation envCex "hi" = some "" ∧
    tryShim envCex = some "Hello there" ∧
    handle_conversation envCex "hi" ≠ some "Hello there" := by
  refine ⟨by decide, by decide, by decide⟩

/-- Witness for C4 at `envCex`, discharging the failing-command hypothesis. -/
theorem C4_witness :
    handle_conversation envCex "hi" = replyChainSpec envCex "hi" ∧
    handle_conversation envCex "hi" =
      handle_conversation { envCex with klarviaModelCmd := "" } "hi" :=
  ⟨(C4_reply_chain_fallthrough envCex "hi").1,
   (C4_reply_chain_fallthrough envCex "hi").2 (Or.inl ⟨1, "", rfl, by decide⟩)⟩

/-! ## Source embedding: the ASGI WebSocket coordinator (src/ai/main.py)

The coordinator is modelled as a pure function of a session trace: the
interleaving of inbound transport frames with the provider callbacks
(`_on_data`, `_on_error`) and the fake-emitter enqueues, in the order the
coordinator observes them.  JSON parsing of inbound control frames is
abstracted to the extracted `type` field; debug payloads are abstracted to
their `stage` tag; binary payloads to their byte count. -/

/-- Python `str.lower()` on the ASCII fragment. -/
def pyLower (s : String) : String := String.mk (s.data.map Char.toLower)

/-- Messages placed on the callback-to-session `outbound` queue. -/
inductive QMsg
  | partialMsg (text : String)
  | finalMsg (text : String)
  | debugMsg (stage : String)
  | errorMsg (message : String)
deriving Repr, DecidableEq

/-- Events sent to the WebSocket client (ASGI `send` calls). `crashE`
marks an uncaught exception escaping the coroutine. -/
inductive OutEvent
  | accept
  | partialE (text : String)
  | finalE (text : String)
  | replyE (text : String)
  | debugE (stage : String)
  | errorE (message : String)
  | binaryE (bytes : Nat)
  | closeE (code : Nat)
  | crashE
deriving Repr, DecidableEq

def qmsgToEvent : QMsg → OutEvent
  | .partialMsg t => .partialE t
  | .finalMsg t => .finalE t
  | .debugMsg s => .debugE s
  | .errorMsg m => .errorE m

/-! ### Query parsing and token auth (lines 105-132) -/

/-- `part.split("=", 1)`: split at the first `=`, `none` when absent. -/
def splitFirstEq : List Char → Option (List Char × List Char)
  | [] => none
  | c :: rest =>
    if c = '=' then some ([], rest)
    else
      match splitFirstEq rest with
      | some (k, v) => some (c :: k, v)
      | none => none

/-- `query_str.split("&")`. -/
def splitAmp : List Char → List (List Char)
  | [] => [[]]
  | c :: rest =>
    if c = '&' then [] :: splitAmp rest
    else
      match splitAmp rest with
      | [] => [[c]]
      | p :: ps => (c :: p) :: ps

/-- The query-parsing loop: empty parts are skipped, `k=v` splits at the
first `=`, a part without `=` maps to the empty value.  The dict is
modelled as the assignment list; lookups take the last assignment. -/
def parseQuery (qs : String) : List (String × String) :=
  if qs = "" then []
  else
    (splitAmp qs.data).filterMap (fun part =>
      if part = [] then none
      else
        match splitFirstEq part with
        | some kv => some (String.mk kv.1, String.mk kv.2)
        | none => some (String.mk part, ""))

/-- `query.get(k, dflt)` under last-assignment-wins dict semantics. -/
def queryGet (d : List (String × String)) (k : String) (dflt : String) : String :=
  match d.reverse.find? (fun kv => kv.1 == k) with
  | some kv => kv.2
  | none => dflt

/-- `_WS_TOKEN` resolved at import (line 54): the WS_AUTH_TOKEN environment
variable when non-empty, else `secrets.token_urlsafe(16)`, modelled by
`gen`. -/
def wsTokenGlobal (envToken gen : String) : String :=
  if envToken ≠ "" then envToken else gen

/-- The per-connection `ws_token` (line 123). -/
def wsToken (envToken gen : String) : String :=
  if envToken ≠ "" then envToken else wsTokenGlobal envToken gen

/-! ### Session configuration and state -/

/-- Outcome of the `_handle_conversation` call offloaded to a thread. -/
inductive ReplyOutcome
  | unavailable
  | raised
  | ok (reply : String)
deriving Repr, DecidableEq

/-- Process configuration and collaborator behaviour for one WebSocket
session. -/
structure WsCfg where
  wsAuthToken : String
  tokenGen : String
  fakeSTT : Bool
  aaiAvailable : Bool
  apiKey : String
  connectOk : Bool
  connectError : String
  monitoringOk : Bool
  normalizeOk : Bool
  replyOutcome : ReplyOutcome
  genVoiceAvailable : Bool
  ttsBytes : Option Nat
  transcribeAvailable : Bool
  transcribeOutcome : Option String
deriving Repr, DecidableEq

/-- Mutable per-session state of the streaming loop. -/
structure StreamState where
  gotFinal : String
  fallback : Bool
  fakeStarted : Bool
  fakeAudio : List Nat
  rtAudio : List Nat
  firstByte : Bool
  firstPartial : Bool
  finalSeen : Bool
  clientDone : Bool
deriving Repr, DecidableEq

def initStreamState : StreamState :=
  ⟨"", false, false, [], [], false, false, false, false⟩

/-! ### The provider callbacks (lines 169-208) -/

/-- Embedding of `_on_data`: a non-empty stripped partial is enqueued (with
a one-time first-partial latency debug event when the first byte was seen),
a non-empty stripped final is enqueued and marks `t_final_seen`. -/
def onData (st : StreamState) (mt : String) (text : String) :
    List QMsg × StreamState :=
  if mt = "PartialTranscript" then
    let t := pyStrip text
    if t ≠ "" then
      if st.firstPartial then ([QMsg.partialMsg t], st)
      else
        ((if st.firstByte then [QMsg.debugMsg "stt_first_partial"] else []) ++
          [QMsg.partialMsg t],
         { st with firstPartial := true })
    else ([], st)
  else if mt = "FinalTranscript" then
    let t := pyStrip text
    if t ≠ "" then ([QMsg.finalMsg t], { st with finalSeen := true })
    else ([], st)
  else ([], st)

/-- Embedding of `_on_error`: an `error` event is enqueued for every
provider error; a deprecated/invalid-model message additionally sets the
in-session fake-STT fallback and enqueues a `debug` event. -/
def onError (st : StreamState) (msg : String) : List QMsg × StreamState :=
  let low := (pyLower msg).data
  if decide ("deprecated".data <:+: low) ||
      (decide ("universal".data <:+: low) && decide ("use".data <:+: low)) then
    ([QMsg.errorMsg msg, QMsg.debugMsg "stt_fallback"], { st with fallback := true })
  else ([QMsg.errorMsg msg], st)

/-! ### The streaming loop (lines 320-424) -/

/-- Inbound frames: a binary frame of `n` bytes, a text frame whose parsed
`type` field is `ty` (`none` for malformed or missing), or a disconnect. -/
inductive SFrame
  | bytes (n : Nat)
  | ctl (ty : Option String)
  | disconnect
deriving Repr, DecidableEq

/-- One step of the interleaved session trace. -/
inductive SItem
  | vendorData (mt : String) (text : String)
  | vendorError (msg : String)
  | emitMsg (m : QMsg)
  | frame (fr : SFrame)
deriving Repr, DecidableEq

/-- Draining one queued message to the client (lines 324-346): a `final`
message updates `got_final_text` through the normalizer, possibly emitting
a `debug` normalize event, before the raw message itself is forwarded. -/
def drainMsg (cfg : WsCfg) (st : StreamState) (m : QMsg) :
    List OutEvent × StreamState :=
  match m with
  | .finalMsg t =>
    if cfg.normalizeOk ∧ t ≠ "" then
      let norm := normalize_transcript t
      ((if norm ≠ t then [OutEvent.debugE "normalize"] else []) ++ [OutEvent.finalE t],
       { st with gotFinal := if norm ≠ "" then norm else st.gotFinal })
    else
      ([OutEvent.finalE t], { st with gotFinal := if t ≠ "" then t else st.gotFinal })
  | .partialMsg t => ([OutEvent.partialE t], st)
  | .debugMsg s => ([OutEvent.debugE s], st)
  | .errorMsg e => ([OutEvent.errorE e], st)

def drainAll (cfg : WsCfg) : StreamState → List QMsg → List OutEvent × StreamState
  | st, [] => ([], st)
  | st, m :: ms =>
    let (evs, st1) := drainMsg cfg st m
    let (evs', st2) := drainAll cfg st1 ms
    (evs ++ evs', st2)

/-- State effect of the fake emitter enqueueing a message (the emitter sets
`t_first_partial` when its first partial goes out, provided a byte was
seen, and `t_final_seen` on its final). -/
def emitFlags (st : StreamState) (m : QMsg) : StreamState :=
  match m with
  | .partialMsg _ => if st.firstByte then { st with firstPartial := true } else st
  | .finalMsg _ => { st with finalSeen := true }
  | _ => st

/-- Routing of one inbound binary frame (lines 360-383): to the fake
emitter queue when FAKE_STT or the runtime fallback is active, to the
vendor transcriber otherwise. -/
def routeBytes (cfg : WsCfg) (st : StreamState) (n : Nat) : StreamState :=
  if cfg.fakeSTT || st.fallback then
    { st with firstByte := true, fakeAudio := st.fakeAudio ++ [n], fakeStarted := true }
  else
    { st with firstByte := true, rtAudio := st.rtAudio ++ [n] }

/-- The main session loop: on each trace step the enqueued messages are
drained to the client in order; a stop/end control frame or a disconnect
breaks (third component `true`); an exhausted trace leaves the session
blocked in `receive()` (third component `false`). -/
def streamLoop (cfg : WsCfg) : List SItem → StreamState →
    List OutEvent × StreamState × Bool
  | [], st => ([], st, false)
  | item :: rest, st =>
    match item with
    | .vendorData mt text =>
      let (msgs, st1) := onData st mt text
      let (evs, st2) := drainAll cfg st1 msgs
      let (evs', st3, brk) := streamLoop cfg rest st2
      (evs ++ evs', st3, brk)
    | .vendorError m =>
      let (msgs, st1) := onError st m
      let (evs, st2) := drainAll cfg st1 msgs
      let (evs', st3, brk) := streamLoop cfg rest st2
      (evs ++ evs', st3, brk)
    | .emitMsg m =>
      let (evs, st2) := drainMsg cfg (emitFlags st m) m
      let (evs', st3, brk) := streamLoop cfg rest st2
      (evs ++ evs', st3, brk)
    | .frame (.bytes n) => streamLoop cfg rest (routeBytes cfg st n)
    | .frame (.ctl ty) =>
      if ty = some "stop" ∨ ty = some "end" then
        ([], { st with clientDone := true }, true)
      else streamLoop cfg rest st
    | .frame .disconnect => ([], { st with clientDone := true }, true)

/-- The post-stop drain of one message (lines 416-423): a final updates
`got_final_text` without normalization; the raw message is forwarded. -/
def postDrainMsg (st : StreamState) (m : QMsg) : OutEvent × StreamState :=
  match m with
  | .finalMsg t => (.finalE t, { st with gotFinal := if t ≠ "" then t else st.gotFinal })
  | m => (qmsgToEvent m, st)

def postDrainAll : StreamState → List QMsg → List OutEvent × StreamState
  | st, [] => ([], st)
  | st, m :: ms =>
    let (ev, st1) := postDrainMsg st m
    let (evs, st2) := postDrainAll st1 ms
    (ev :: evs, st2)

/-- The `_handle_conversation` outcome as the session sees it: `""` when
the import failed or the call raised. -/
def modelReply (cfg : WsCfg) : String :=
  match cfg.replyOutcome with
  | .ok r => r
  | _ => ""

/-- Lines 425-507: model reply, diagnostic debug events, the unconditional
`reply` event (echo substituted for a missing reply), optional TTS audio
frame, and the normal close. -/
def replySection (cfg : WsCfg) (st : StreamState) : List OutEvent :=
  let reply := if st.gotFinal ≠ "" then modelReply cfg else ""
  let evs1 :=
    if st.gotFinal ≠ "" then
      (if cfg.monitoringOk then [OutEvent.debugE "timings"] else []) ++
        (if st.firstByte ∧ st.firstPartial then [OutEvent.debugE "stt_first_partial"] else []) ++
        (if st.firstByte ∧ st.finalSeen then [OutEvent.debugE "stt_final"] else [])
    else []
  let reply2 := if reply = "" ∧ st.gotFinal ≠ "" then "You said: " ++ st.gotFinal else reply
  let audio :=
    if reply2 ≠ "" ∧ cfg.genVoiceAvailable then
      match cfg.ttsBytes with
      | some n => n
      | none => 0
    else 0
  evs1 ++ (OutEvent.replyE reply2 ::
    ((if audio ≠ 0 then [OutEvent.binaryE audio, OutEvent.debugE "tts_bytes"] else []) ++
      [OutEvent.closeE 1000]))

/-- The `/ws/audio-stream` endpoint after a successful token check: accept,
STT setup (missing key, missing SDK with a key, failed vendor connect),
then the session loop, the bounded post-stop drain (at most 20 messages,
`post` being the queue contents at that point), and the reply sequence. -/
def wsAudioStream (cfg : WsCfg) (trace : List SItem) (post : List QMsg) :
    List OutEvent :=
  if cfg.apiKey = "" ∧ cfg.fakeSTT = false then
    [OutEvent.accept, OutEvent.errorE "ASSEMBLYAI_API_KEY missing", OutEvent.closeE 1011]
  else if cfg.fakeSTT = false ∧ cfg.aaiAvailable = false then
    [OutEvent.accept, OutEvent.crashE]
  else if cfg.fakeSTT = false ∧ cfg.connectOk = false then
    [OutEvent.accept, OutEvent.errorE ("AAI connect failed: " ++ cfg.connectError),
      OutEvent.closeE 1011]
  else
    let r := streamLoop cfg trace initStreamState
    if r.2.2 then
      let pd := postDrainAll r.2.1 (post.take 20)
      OutEvent.accept :: (r.1 ++ pd.1 ++ replySection cfg pd.2)
    else OutEvent.accept :: r.1

/-! ### The batch endpoint `/ws/audio` (lines 519-668) -/

/-- Inbound frames of the batch loop. -/
inductive BFrame
  | bytes (blob : Nat)
  | ctl (ty : Option String)
  | disconnect
deriving Repr, DecidableEq

/-- The accumulate loop (lines 525-541): the first binary frame breaks with
one chunk; an end/stop control frame or a disconnect breaks with none;
other text frames are ignored; `none` when the trace is exhausted with the
session still waiting. -/
def batchCollect : List BFrame → Option (List Nat)
  | [] => none
  | .bytes b :: _ => some [b]
  | .ctl ty :: rest =>
    if ty = some "end" ∨ ty = some "stop" then some [] else batchCollect rest
  | .disconnect :: _ => some []

/-- The effective transcript of the batch path: `""` when the STT helper is
unavailable or raised, the returned text otherwise. -/
def batchTranscript (cfg : WsCfg) : String :=
  if cfg.transcribeAvailable then
    match cfg.transcribeOutcome with
    | some t => t
    | none => ""
  else ""

/-- The `/ws/audio` endpoint after a successful token check. -/
def wsAudioBatch (cfg : WsCfg) (frames : List BFrame) : List OutEvent :=
  match batchCollect frames with
  | none => [OutEvent.accept]
  | some [] =>
    [OutEvent.accept, OutEvent.errorE "No audio received", OutEvent.closeE 1000]
  | some (_ :: _) =>
    let evs1 :=
      if cfg.transcribeAvailable ∧ cfg.transcribeOutcome = none then
        [OutEvent.errorE "transcription failed"]
      else []
    let transcript := batchTranscript cfg
    let evs2 := if transcript ≠ "" then [OutEvent.finalE transcript] else []
    let reply1 := if transcript ≠ "" then modelReply cfg else ""
    let evs3 := if cfg.monitoringOk then [OutEvent.debugE "timings"] else []
    let reply :=
      if reply1 = "" ∧ transcript ≠ "" then "You said: " ++ transcript
      else if reply1 = "" ∧ transcript = "" then
        "I couldn\x27t hear anything. Please try again."
      else reply1
    let audio :=
      if cfg.genVoiceAvailable ∧ reply ≠ "" then
        match cfg.ttsBytes with
        | some n => n
        | none => 0
      else 0
    OutEvent.accept :: (evs1 ++ evs2 ++ evs3 ++ [OutEvent.replyE reply] ++
      (if audio ≠ 0 then [OutEvent.binaryE audio, OutEvent.debugE "tts_bytes"] else []) ++
      [OutEvent.closeE 1000])

/-- The WebSocket part of the ASGI `app` (lines 105-674): query parsing,
token auth, then path dispatch. -/
def wsHandle (cfg : WsCfg) (path : String) (queryStr : String)
    (trace : List SItem) (post : List QMsg) (frames : List BFrame) :
    List OutEvent :=
  if wsToken cfg.wsAuthToken cfg.tokenGen ≠ "" ∧
      queryGet (parseQuery queryStr) "token" "" ≠ wsToken cfg.wsAuthToken cfg.tokenGen then
    [OutEvent.accept, OutEvent.errorE "Unauthorized", OutEvent.closeE 4401]
  else if path = "/ws/audio-stream" then wsAudioStream cfg trace post
  else if path = "/ws/audio" then wsAudioBatch cfg frames
  else
    [OutEvent.accept, OutEvent.errorE "Unknown WebSocket path", OutEvent.closeE 1008]

/-! ### Helper lemmas about the session loop -/

def isReplyE : OutEvent → Bool
  | .replyE _ => true
  | _ => false

def isFinalE : OutEvent → Bool
  | .finalE _ => true
  | _ => false

theorem qmsgToEvent_no_reply (m : QMsg) : isReplyE (qmsgToEvent m) = false := by
  cases m <;> rfl

theorem drainMsg_events_cases (cfg : WsCfg) (st : StreamState) (m : QMsg) :
    ∀ e ∈ (drainMsg cfg st m).1, (∃ s, e = OutEvent.debugE s) ∨ e = qmsgToEvent m := by
  intro e he
  cases m with
  | finalMsg t =>
    by_cases h : cfg.normalizeOk = true ∧ t ≠ ""
    · by_cases h2 : normalize_transcript t ≠ t
      · simp [drainMsg, h, h2] at he
        rcases he with rfl | rfl
        · exact Or.inl ⟨"normalize", rfl⟩
        · exact Or.inr rfl
      · simp [drainMsg, h, h2] at he
        subst he
        exact Or.inr rfl
    · simp [drainMsg, h] at he
      subst he
      exact Or.inr rfl
  | partialMsg t =>
    simp [drainMsg] at he
    subst he
    exact Or.inr rfl
  | debugMsg s =>
    simp [drainMsg] at he
    subst he
    exact Or.inl ⟨s, rfl⟩
  | errorMsg s =>
    simp [drainMsg] at he
    subst he
    exact Or.inr rfl

theorem drainMsg_no_reply (cfg : WsCfg) (st : StreamState) (m : QMsg) :
    ∀ e ∈ (drainMsg cfg st m).1, isReplyE e = false := by
  intro e he
  rcases drainMsg_events_cases cfg st m e he with ⟨s, rfl⟩ | rfl
  · rfl
  · exact qmsgToEvent_no_reply m

theorem drainAll_nil (cfg : WsCfg) (st : StreamState) : drainAll cfg st [] = ([], st) := rfl

theorem drainAll_cons (cfg : WsCfg) (st : StreamState) (m : QMsg) (ms : List QMsg) :
    drainAll cfg st (m :: ms) =
      ((drainMsg cfg st m).1 ++ (drainAll cfg (drainMsg cfg st m).2 ms).1,
        (drainAll cfg (drainMsg cfg st m).2 ms).2) := rfl

theorem drainAll_no_reply (cfg : WsCfg) (st : StreamState) (ms : List QMsg) :
    ∀ e ∈ (drainAll cfg st ms).1, isReplyE e = false := by
  induction ms generalizing st with
  | nil => intro e he; simp [drainAll_nil] at he
  | cons m ms' ih =>
    intro e he
    rw [drainAll_cons] at he
    rcases List.mem_append.mp he with he | he
    · exact drainMsg_no_reply cfg st m e he
    · exact ih (drainMsg cfg st m).2 e he

theorem streamLoop_nil (cfg : WsCfg) (st : StreamState) :
    streamLoop cfg [] st = ([], st, false) := rfl

theorem streamLoop_vendorData (cfg : WsCfg) (mt text : String) (rest : List SItem)
    (st : StreamState) :
    streamLoop cfg (SItem.vendorData mt text :: rest) st =
      ((drainAll cfg (onData st mt text).2 (onData st mt text).1).1 ++
          (streamLoop cfg rest (drainAll cfg (onData st mt text).2 (onData st mt text).1).2).1,
        (streamLoop cfg rest (drainAll cfg (onData st mt text).2 (onData st mt text).1).2).2) := rfl

theorem streamLoop_vendorError (cfg : WsCfg) (m : String) (rest : List SItem)
    (st : StreamState) :
    streamLoop cfg (SItem.vendorError m :: rest) st =
      ((drainAll cfg (onError st m).2 (onError st m).1).1 ++
          (streamLoop cfg rest (drainAll cfg (onError st m).2 (onError st m).1).2).1,
        (streamLoop cfg rest (drainAll cfg (onError st m).2 (onError st m).1).2).2) := rfl

theorem streamLoop_emit (cfg : WsCfg) (m : QMsg) (rest : List SItem) (st : StreamState) :
    streamLoop cfg (SItem.emitMsg m :: rest) st =
      ((drainMsg cfg (emitFlags st m) m).1 ++
          (streamLoop cfg rest (drainMsg cfg (emitFlags st m) m).2).1,
        (streamLoop cfg rest (drainMsg cfg (emitFlags st m) m).2).2) := rfl

theorem streamLoop_bytes (cfg : WsCfg) (n : Nat) (rest : List SItem) (st : StreamState) :
    streamLoop cfg (SItem.frame (SFrame.bytes n) :: rest) st =
      streamLoop cfg rest (routeBytes cfg st n) := rfl

theorem streamLoop_ctl (cfg : WsCfg) (ty : Option String) (rest : List SItem)
    (st : StreamState) :
    streamLoop cfg (SItem.frame (SFrame.ctl ty) :: rest) st =
      (if ty = some "stop" ∨ ty = some "end" then
        ([], { st with clientDone := true }, true)
      else streamLoop cfg rest st) := rfl

theorem streamLoop_disconnect (cfg : WsCfg) (rest : List SItem) (st : StreamState) :
    streamLoop cfg (SItem.frame SFrame.disconnect :: rest) st =
      ([], { st with clientDone := true }, true) := rfl

theorem streamLoop_no_reply (cfg : WsCfg) (trace : List SItem) (st : StreamState) :
    ∀ e ∈ (streamLoop cfg trace st).1, isReplyE e = false := by
  induction trace generalizing st with
  | nil => intro e he; simp [streamLoop_nil] at he
  | cons item rest ih =>
    intro e he
    cases item with
    | vendorData mt text =>
      rw [streamLoop_vendorData] at he
      rcases List.mem_append.mp he with he | he
      · exact drainAll_no_reply cfg _ _ e he
      · exact ih _ e he
    | vendorError m =>
      rw [streamLoop_vendorError] at he
      rcases List.mem_append.mp he with he | he
      · exact drainAll_no_reply cfg _ _ e he
      · exact ih _ e he
    | emitMsg m =>
      rw [streamLoop_emit] at he
      rcases List.mem_append.mp he with he | he
      · exact drainMsg_no_reply cfg _ m e he
      · exact ih _ e he
    | frame fr =>
      cases fr with
      | bytes n =>
        rw [streamLoop_bytes] at he
        exact ih _ e he
      | ctl ty =>
        rw [streamLoop_ctl] at he
        by_cases hty : ty = some "stop" ∨ ty = some "end"
        · rw [if_pos hty] at he
          simp at he
        · rw [if_neg hty] at he
          exact ih _ e he
      | disconnect =>
        rw [streamLoop_disconnect] at he
        simp at he

theorem postDrainAll_nil (st : StreamState) : postDrainAll st [] = ([], st) := rfl

theorem postDrainAll_cons (st : StreamState) (m : QMsg) (ms : List QMsg) :
    postDrainAll st (m :: ms) =
      ((postDrainMsg st m).1 :: (postDrainAll (postDrainMsg st m).2 ms).1,
        (postDrainAll (postDrainMsg st m).2 ms).2) := rfl

theorem postDrainMsg_no_reply (st : StreamState) (m : QMsg) :
    isReplyE (postDrainMsg st m).1 = false := by
  cases m <;> rfl

theorem postDrainAll_no_reply (st : StreamState) (ms : List QMsg) :
    ∀ e ∈ (postDrainAll st ms).1, isReplyE e = false := by
  induction ms generalizing st with
  | nil => intro e he; simp [postDrainAll_nil] at he
  | cons m ms' ih =>
    intro e he
    rw [postDrainAll_cons] at he
    rcases List.mem_cons.mp he with rfl | he
    · exact postDrainMsg_no_reply st m
    · exact ih (postDrainMsg st m).2 e he

theorem audio_tail_safe (a : Nat) :
    ∀ e ∈ ((if a ≠ 0 then [OutEvent.binaryE a, OutEvent.debugE "tts_bytes"] else []) ++
      [OutEvent.closeE 1000]), isReplyE e = false ∧ isFinalE e = false := by
  intro e he
  by_cases h : a ≠ 0
  · rw [if_pos h] at he
    simp at he
    rcases he with rfl | rfl | rfl <;> exact ⟨rfl, rfl⟩
  · rw [if_neg h] at he
    simp at he
    subst he
    exact ⟨rfl, rfl⟩

theorem replySection_shape (cfg : WsCfg) (st : StreamState) :
    ∃ pre r rest,
      replySection cfg st = pre ++ OutEvent.replyE r :: rest ∧
      (∀ e ∈ pre, isReplyE e = false) ∧
      (∀ e ∈ rest, isReplyE e = false ∧ isFinalE e = false) := by
  simp only [replySection]
  refine ⟨_, _, _, rfl, ?_, ?_⟩
  · intro e he
    split at he
    · rcases List.mem_append.mp he with he | he
      · rcases List.mem_append.mp he with he | he
        · split at he
          · simp at he; subst he; rfl
          · simp at he
        · split at he
          · simp at he; subst he; rfl
          · simp at he
      · split at he
        · simp at he; subst he; rfl
        · simp at he
    · simp at he
  · intro e he
    exact audio_tail_safe _ e he

/-! ## Claims C2 and C10: the token gate -/

theorem wsToken_ne_empty (envToken gen : String) (hgen : gen ≠ "") :
    wsToken envToken gen ≠ "" := by
  unfold wsToken wsTokenGlobal
  by_cases h : envToken ≠ ""
  · rw [if_pos h]
    exact h
  · rw [if_neg h, if_neg h]
    exact hgen

theorem wsHandle_reject (cfg : WsCfg) (path qs : String) (trace : List SItem)
    (post : List QMsg) (frames : List BFrame)
    (htok : wsToken cfg.wsAuthToken cfg.tokenGen ≠ "")
    (hmis : queryGet (parseQuery qs) "token" "" ≠ wsToken cfg.wsAuthToken cfg.tokenGen) :
    wsHandle cfg path qs trace post frames =
      [OutEvent.accept, OutEvent.errorE "Unauthorized", OutEvent.closeE 4401] := by
  unfold wsHandle
  rw [if_pos ⟨htok, hmis⟩]

/-- C10.  The WebSocket auth token is always non-empty (a random token is
generated at import when WS_AUTH_TOKEN is unset), so the token check is
always enforced: on every path, a connection whose `token` query parameter
differs from the server token — in particular one that supplies no query
string at all — is rejected and closed with code 4401; there is no
unauthenticated mode. -/
theorem C10_no_unauthenticated_mode (cfg : WsCfg) (hgen : cfg.tokenGen ≠ "") :
    wsToken cfg.wsAuthToken cfg.tokenGen ≠ "" ∧
    (∀ path qs trace post frames,
      queryGet (parseQuery qs) "token" "" ≠ wsToken cfg.wsAuthToken cfg.tokenGen →
      wsHandle cfg path qs trace post frames =
        [OutEvent.accept, OutEvent.errorE "Unauthorized", OutEvent.closeE 4401]) ∧
    (∀ path trace post frames,
      wsHandle cfg path "" trace post frames =
        [OutEvent.accept, OutEvent.errorE "Unauthorized", OutEvent.closeE 4401]) := by
  have htok := wsToken_ne_empty cfg.wsAuthToken cfg.tokenGen hgen
  refine ⟨htok, ?_, ?_⟩
  · intro path qs trace post frames hmis
    exact wsHandle_reject cfg path qs trace post frames htok hmis
  · intro path trace post frames
    apply wsHandle_reject cfg path "" trace post frames htok
    rw [show queryGet (parseQuery "") "token" "" = "" from rfl]
    exact fun h => htok h.symm

/-- Configuration used for the concrete auth sessions: WS_AUTH_TOKEN is
set to `"secret123"`. -/
def cfgAuth : WsCfg :=
  { wsAuthToken := "secret123", tokenGen := "aXb4q9", fakeSTT := false
  , aaiAvailable := true, apiKey := "k", connectOk := true, connectError := ""
  , monitoringOk := false, normalizeOk := true, replyOutcome := .unavailable
  , genVoiceAvailable := false, ttsBytes := none, transcribeAvailable := false
  , transcribeOutcome := none }

/-- Witness for C10: a connection to the streaming path with no query
string at all is rejected with 4401. -/
theorem C10_witness :
    wsToken cfgAuth.wsAuthToken cfgAuth.tokenGen ≠ "" ∧
    wsHandle cfgAuth "/ws/audio-stream" "" [] [] [] =
      [OutEvent.accept, OutEvent.errorE "Unauthorized", OutEvent.closeE 4401] :=
  ⟨(C10_no_unauthenticated_mode cfgAuth (by decide)).1,
   (C10_no_unauthenticated_mode cfgAuth (by decide)).2.2 "/ws/audio-stream" [] [] []⟩

/-- Counterexample to C2 as stated: on a wrong token the coordinator does
close with the unauthorized code 4401, but an `error` event
(`"Unauthorized"`) is sent to the client before the close, so "no other
events are sent" is false. -/
theorem C2_counterexample :
    wsHandle cfgAuth "/ws/audio" "token=wrong" [] [] [] =
      [OutEvent.accept, OutEvent.errorE "Unauthorized", OutEvent.closeE 4401] ∧
    OutEvent.errorE "Unauthorized" ∈ wsHandle cfgAuth "/ws/audio" "token=wrong" [] [] [] := by
  constructor
  · decide
  · decide

/-- C2 (amended).  For every WebSocket connect whose supplied token does
not match the configured shared token, the connection is accepted, exactly
one `error` event (`"Unauthorized"`) is sent, and the connection is closed
with the unauthorized close code 4401 — no other events are sent. -/
theorem C2_unauthorized_error_then_close (cfg : WsCfg) (path qs : String)
    (trace : List SItem) (post : List QMsg) (frames : List BFrame)
    (htok : wsToken cfg.wsAuthToken cfg.tokenGen ≠ "")
    (hmis : queryGet (parseQuery qs) "token" "" ≠ wsToken cfg.wsAuthToken cfg.tokenGen) :
    wsHandle cfg path qs trace post frames =
      [OutEvent.accept, OutEvent.errorE "Unauthorized", OutEvent.closeE 4401] :=
  wsHandle_reject cfg path qs trace post frames htok hmis

/-- Witness for C2 at a concrete wrong-token connect. -/
theorem C2_witness :
    wsHandle cfgAuth "/ws/audio" "token=nope" [] [] [] =
      [OutEvent.accept, OutEvent.errorE "Unauthorized", OutEvent.closeE 4401] :=
  C2_unauthorized_error_then_close cfgAuth "/ws/audio" "token=nope" [] [] []
    (by decide) (by decide)

/-! ## Claim C1: exactly one reply, finals precede it -/

/-- The tail of an event list after its first `reply` event. -/
def afterReply : List OutEvent → List OutEvent
  | [] => []
  | .replyE _ :: rest => rest
  | _ :: rest => afterReply rest

theorem afterReply_append (pre : List OutEvent) (r : String) (rest : List OutEvent)
    (h : ∀ e ∈ pre, isReplyE e = false) :
    afterReply (pre ++ OutEvent.replyE r :: rest) = rest := by
  induction pre with
  | nil => rfl
  | cons e pre' ih =>
    have he := h e (by simp)
    cases e with
    | replyE t => simp [isReplyE] at he
    | accept => exact ih (fun x hx => h x (by simp [hx]))
    | partialE t => exact ih (fun x hx => h x (by simp [hx]))
    | finalE t => exact ih (fun x hx => h x (by simp [hx]))
    | debugE s => exact ih (fun x hx => h x (by simp [hx]))
    | errorE m => exact ih (fun x hx => h x (by simp [hx]))
    | binaryE n => exact ih (fun x hx => h x (by simp [hx]))
    | closeE c => exact ih (fun x hx => h x (by simp [hx]))
    | crashE => exact ih (fun x hx => h x (by simp [hx]))

theorem filter_eq_nil_of_all {p : OutEvent → Bool} {l : List OutEvent}
    (h : ∀ e ∈ l, p e = false) : l.filter p = [] := by
  induction l with
  | nil => rfl
  | cons e l' ih =>
    rw [List.filter_cons]
    rw [h e (by simp)]
    simp only [Bool.false_eq_true, if_false]
    exact ih (fun x hx => h x (by simp [hx]))

theorem filter_reply_single (pre : List OutEvent) (r : String) (rest : List OutEvent)
    (hp : ∀ e ∈ pre, isReplyE e = false) (hr : ∀ e ∈ rest, isReplyE e = false) :
    (pre ++ OutEvent.replyE r :: rest).filter isReplyE = [OutEvent.replyE r] := by
  rw [List.filter_append, filter_eq_nil_of_all hp, List.filter_cons]
  rw [show isReplyE (OutEvent.replyE r) = true from rfl]
  simp only [if_true, List.nil_append]
  rw [filter_eq_nil_of_all hr]

/-- C1 (amended).  Every streaming session on `/ws/audio-stream` that
completes STT setup (the offline simulator active, or a key present with
the vendor SDK importable and the vendor connect succeeding) and whose
loop terminates by a stop frame or a disconnect — including a session that
never sends a stop frame but disconnects after partial audio — emits
exactly one `reply` event, and no `final` event is emitted after it (all
finals precede the reply).  Failed-setup sessions emit no reply, and a
session may emit several `final` events when the vendor delivers several
final transcripts. -/
theorem C1_stream_exactly_one_reply (cfg : WsCfg) (trace : List SItem) (post : List QMsg)
    (hsetup : cfg.fakeSTT = true ∨
      (cfg.apiKey ≠ "" ∧ cfg.aaiAvailable = true ∧ cfg.connectOk = true))
    (hbrk : (streamLoop cfg trace initStreamState).2.2 = true) :
    ((wsAudioStream cfg trace post).filter isReplyE).length = 1 ∧
    (afterReply (wsAudioStream cfg trace post)).filter isFinalE = [] := by
  have h1 : ¬(cfg.apiKey = "" ∧ cfg.fakeSTT = false) := by
    rcases hsetup with h | ⟨h, -, -⟩
    · intro hc
      rw [h] at hc
      cases hc.2
    · intro hc
      exact h hc.1
  have h2 : ¬(cfg.fakeSTT = false ∧ cfg.aaiAvailable = false) := by
    rcases hsetup with h | ⟨-, h, -⟩
    · intro hc
      rw [h] at hc
      cases hc.1
    · intro hc
      rw [h] at hc
      cases hc.2
  have h3 : ¬(cfg.fakeSTT = false ∧ cfg.connectOk = false) := by
    rcases hsetup with h | ⟨-, -, h⟩
    · intro hc
      rw [h] at hc
      cases hc.1
    · intro hc
      rw [h] at hc
      cases hc.2
  obtain ⟨p1, r, t1, heq, hp1, ht1⟩ := replySection_shape cfg
    (postDrainAll (streamLoop cfg trace initStreamState).2.1 (post.take 20)).2
  have hout : wsAudioStream cfg trace post =
      (OutEvent.accept :: ((streamLoop cfg trace initStreamState).1 ++
        ((postDrainAll (streamLoop cfg trace initStreamState).2.1 (post.take 20)).1 ++ p1))) ++
        OutEvent.replyE r :: t1 := by
    simp only [wsAudioStream]
    rw [if_neg h1, if_neg h2, if_neg h3, if_pos hbrk, heq]
    simp [List.append_assoc]
  have hpre : ∀ e ∈ OutEvent.accept :: ((streamLoop cfg trace initStreamState).1 ++
      ((postDrainAll (streamLoop cfg trace initStreamState).2.1 (post.take 20)).1 ++ p1)),
      isReplyE e = false := by
    intro e he
    rcases List.mem_cons.mp he with rfl | he
    · rfl
    · rcases List.mem_append.mp he with he | he
      · exact streamLoop_no_reply cfg trace initStreamState e he
      · rcases List.mem_append.mp he with he | he
        · exact postDrainAll_no_reply _ _ e he
        · exact hp1 e he
  constructor
  · rw [hout, filter_reply_single _ r t1 hpre (fun e he => (ht1 e he).1)]
    rfl
  · rw [hout, afterReply_append _ r t1 hpre]
    exact filter_eq_nil_of_all (fun e he => (ht1 e he).2)

/-- Session configuration with the offline simulator active. -/
def cfgFake : WsCfg :=
  { wsAuthToken := "s", tokenGen := "g", fakeSTT := true, aaiAvailable := false
  , apiKey := "", connectOk := false, connectError := "", monitoringOk := true
  , normalizeOk := true, replyOutcome := .ok "Take a short break.", genVoiceAvailable := false
  , ttsBytes := none, transcribeAvailable := false, transcribeOutcome := none }

/-- Session configuration with no STT key and no simulator. -/
def cfgNoKey : WsCfg :=
  { cfgFake with fakeSTT := false, aaiAvailable := true, apiKey := "" }

/-- Counterexample to C1 as stated: a streaming session with no
ASSEMBLYAI_API_KEY and FAKE_STT unset emits an `error` event and closes
with 1011, emitting no `reply` at all; and a session whose vendor delivers
two final transcripts forwards two `final` events. -/
theorem C1_counterexample :
    (wsAudioStream cfgNoKey [SItem.frame SFrame.disconnect] []).filter isReplyE = [] ∧
    ((wsAudioStream cfgFake
        [SItem.emitMsg (QMsg.finalMsg "one"), SItem.emitMsg (QMsg.finalMsg "two"),
          SItem.frame (SFrame.ctl (some "stop"))] []).filter isFinalE).length = 2 := by
  constructor
  · decide
  · decide

/-- Witness for C1 at a concrete simulator session ended by a stop frame. -/
theorem C1_witness :
    ((wsAudioStream cfgFake [SItem.frame (SFrame.ctl (some "stop"))] []).filter
      isReplyE).length = 1 ∧
    (afterReply (wsAudioStream cfgFake [SItem.frame (SFrame.ctl (some "stop"))] [])).filter
      isFinalE = [] :=
  C1_stream_exactly_one_reply cfgFake [SItem.frame (SFrame.ctl (some "stop"))] []
    (Or.inl rfl) (by decide)

/-! ## Claim C3: vendor protocol degradation and the in-session fallback -/

theorem onData_fallback (st : StreamState) (mt text : String) :
    (onData st mt text).2.fallback = st.fallback := by
  simp only [onData]
  repeat' split
  all_goals rfl

theorem onError_fallback_mono (st : StreamState) (msg : String) (h : st.fallback = true) :
    (onError st msg).2.fallback = true := by
  simp only [onError]
  split
  · rfl
  · exact h

theorem drainMsg_fallback (cfg : WsCfg) (st : StreamState) (m : QMsg) :
    (drainMsg cfg st m).2.fallback = st.fallback := by
  cases m with
  | finalMsg t =>
    simp only [drainMsg]
    split
    · rfl
    · rfl
  | partialMsg t => rfl
  | debugMsg s => rfl
  | errorMsg e => rfl

theorem drainAll_fallback (cfg : WsCfg) (ms : List QMsg) : ∀ st : StreamState,
    (drainAll cfg st ms).2.fallback = st.fallback := by
  induction ms with
  | nil => intro st; rfl
  | cons m ms ih =>
    intro st
    rw [drainAll_cons]
    show (drainAll cfg (drainMsg cfg st m).2 ms).2.fallback = st.fallback
    rw [ih, drainMsg_fallback]

theorem emitFlags_fallback (st : StreamState) (m : QMsg) :
    (emitFlags st m).fallback = st.fallback := by
  cases m with
  | partialMsg t =>
    simp only [emitFlags]
    split
    · rfl
    · rfl
  | finalMsg t => rfl
  | debugMsg s => rfl
  | errorMsg e => rfl

theorem routeBytes_fallback (cfg : WsCfg) (st : StreamState) (n : Nat) :
    (routeBytes cfg st n).fallback = st.fallback := by
  simp only [routeBytes]
  split
  · rfl
  · rfl

theorem streamLoop_fallback_mono (cfg : WsCfg) (trace : List SItem) :
    ∀ st : StreamState, st.fallback = true →
      (streamLoop cfg trace st).2.1.fallback = true := by
  induction trace with
  | nil => intro st h; exact h
  | cons item rest ih =>
    intro st h
    cases item with
    | vendorData mt text =>
      rw [streamLoop_vendorData]
      exact ih _ (by rw [drainAll_fallback, onData_fallback]; exact h)
    | vendorError m =>
      rw [streamLoop_vendorError]
      exact ih _ (by rw [drainAll_fallback]; exact onError_fallback_mono st m h)
    | emitMsg m =>
      rw [streamLoop_emit]
      exact ih _ (by rw [drainMsg_fallback, emitFlags_fallback]; exact h)
    | frame fr =>
      cases fr with
      | bytes n =>
        rw [streamLoop_bytes]
        exact ih _ (by rw [routeBytes_fallback]; exact h)
      | ctl ty =>
        rw [streamLoop_ctl]
        split
        · exact h
        · exact ih _ h
      | disconnect =>
        rw [streamLoop_disconnect]
        exact h

/-- Vendor streaming configuration: a key is set, the SDK imports, and the
realtime connect succeeds. -/
def cfgVendor : WsCfg :=
  { cfgFake with fakeSTT := false, aaiAvailable := true, apiKey := "k", connectOk := true }

/-- C3 (amended).  When the streaming STT vendor signals a
deprecated/invalid model mid-stream, `_on_error` switches the session to
the offline simulator: it enqueues an `error` event for the vendor message
followed by a `debug` event (stage `stt_fallback`) — the degradation is
thus reported via both an `error` and a `debug` event, not via `debug`
alone — and it sets the fallback flag, which persists for the remainder of
the session, after which every inbound binary frame is routed to the
offline simulator queue instead of the vendor transcriber. -/
theorem C3_vendor_degradation_fallback (cfg : WsCfg) (st : StreamState) (msg : String)
    (trace : List SItem) (n : Nat)
    (hdep : "deprecated".data <:+: (pyLower msg).data) :
    onError st msg =
      ([QMsg.errorMsg msg, QMsg.debugMsg "stt_fallback"], { st with fallback := true }) ∧
    (streamLoop cfg trace { st with fallback := true }).2.1.fallback = true ∧
    routeBytes cfg { st with fallback := true } n =
      { st with
        fallback := true
        firstByte := true
        fakeAudio := st.fakeAudio ++ [n]
        fakeStarted := true } := by
  refine ⟨?_, ?_, ?_⟩
  · simp only [onError]
    rw [decide_eq_true hdep, Bool.true_or]
    rfl
  · exact streamLoop_fallback_mono cfg trace _ rfl
  · simp only [routeBytes]
    rw [Bool.or_true]
    rfl

/-- Counterexample to C3 as stated: in a vendor session receiving the
deprecated-model signal, the client is sent an `error` event carrying the
vendor message (alongside the `debug` fallback event), so the degradation
is not reported via `debug` only. -/
theorem C3_counterexample :
    OutEvent.errorE "model deprecated" ∈
      wsAudioStream cfgVendor
        [SItem.vendorError "model deprecated", SItem.frame (SFrame.ctl (some "stop"))] [] ∧
    OutEvent.debugE "stt_fallback" ∈
      wsAudioStream cfgVendor
        [SItem.vendorError "model deprecated", SItem.frame (SFrame.ctl (some "stop"))] [] ∧
    (streamLoop cfgVendor
      [SItem.vendorError "model deprecated", SItem.frame (SFrame.bytes 4000)]
      initStreamState).2.1.fakeAudio = [4000] := by
  refine ⟨?_, ?_, ?_⟩
  · decide
  · decide
  · decide

/-- Witness for C3 at the concrete deprecated-model vendor message. -/
theorem C3_witness :
    onError initStreamState "model deprecated" =
      ([QMsg.errorMsg "model deprecated", QMsg.debugMsg "stt_fallback"],
        { initStreamState with fallback := true }) ∧
    (streamLoop cfgVendor [SItem.frame (SFrame.bytes 4000)]
      { initStreamState with fallback := true }).2.1.fallback = true ∧
    routeBytes cfgVendor { initStreamState with fallback := true } 4000 =
      { initStreamState with
        fallback := true
        firstByte := true
        fakeAudio := initStreamState.fakeAudio ++ [4000]
        fakeStarted := true } :=
  C3_vendor_degradation_fallback cfgVendor initStreamState "model deprecated"
    [SItem.frame (SFrame.bytes 4000)] 4000 (by decide)

/-! ## Claim C7: the batch-path reply -/

/-- C7 (amended).  On the non-streaming `/ws/audio` path, whenever at
least one audio chunk was received before the end/stop frame, exactly one
`reply` event is emitted: if the transcript is empty the reply is exactly
"I couldn\x27t hear anything. Please try again." and no `final` event is
emitted, and if a transcript exists but the reply chain returned nothing
the reply is the echo "You said: <transcript>".  When no audio chunk was
received the session instead sends the error "No audio received" and
closes with code 1000, emitting no `reply` at all. -/
theorem C7_batch_reply (cfg : WsCfg) (frames : List BFrame) (c : Nat) (cs : List Nat)
    (hcol : batchCollect frames = some (c :: cs)) :
    ((wsAudioBatch cfg frames).filter isReplyE).length = 1 ∧
    (batchTranscript cfg = "" →
      (wsAudioBatch cfg frames).filter isReplyE =
        [OutEvent.replyE "I couldn\x27t hear anything. Please try again."] ∧
      (wsAudioBatch cfg frames).filter isFinalE = []) ∧
    (batchTranscript cfg ≠ "" → modelReply cfg = "" →
      (wsAudioBatch cfg frames).filter isReplyE =
        [OutEvent.replyE ("You said: " ++ batchTranscript cfg)]) := by
  refine ⟨?_, fun ht => ⟨?_, ?_⟩, fun ht hm => ?_⟩
  · simp [wsAudioBatch, hcol, List.filter_append, apply_ite (List.filter isReplyE), isReplyE]
  · simp [wsAudioBatch, hcol, ht, List.filter_append, apply_ite (List.filter isReplyE), isReplyE]
  · simp [wsAudioBatch, hcol, ht, List.filter_append, apply_ite (List.filter isFinalE), isFinalE]
  · simp [wsAudioBatch, hcol, ht, hm, List.filter_append, apply_ite (List.filter isReplyE),
      isReplyE]

/-- Counterexample to C7 as stated: a batch session that sends the end
frame before any audio chunk emits no `reply` event at all — it sends the
error "No audio received" and closes with 1000. -/
theorem C7_counterexample :
    (wsAudioBatch cfgFake [BFrame.ctl (some "end")]).filter isReplyE = [] ∧
    wsAudioBatch cfgFake [BFrame.ctl (some "end")] =
      [OutEvent.accept, OutEvent.errorE "No audio received", OutEvent.closeE 1000] := by
  constructor
  · decide
  · decide

/-- Witness for C7 at a concrete one-chunk silent batch session. -/
theorem C7_witness :
    ((wsAudioBatch cfgFake [BFrame.bytes 5]).filter isReplyE).length = 1 ∧
    (batchTranscript cfgFake = "" →
      (wsAudioBatch cfgFake [BFrame.bytes 5]).filter isReplyE =
        [OutEvent.replyE "I couldn\x27t hear anything. Please try again."] ∧
      (wsAudioBatch cfgFake [BFrame.bytes 5]).filter isFinalE = []) ∧
    (batchTranscript cfgFake ≠ "" → modelReply cfgFake = "" →
      (wsAudioBatch cfgFake [BFrame.bytes 5]).filter isReplyE =
        [OutEvent.replyE ("You said: " ++ batchTranscript cfgFake)]) :=
  C7_batch_reply cfgFake [BFrame.bytes 5] 5 [] rfl
/-! ## Claim C8: the offline simulator pacing (`_fake_emitter`, lines 216-283)

One loop iteration of `_fake_emitter` either receives one chunk of `n`
bytes from the audio queue or times out.  The pacing arithmetic runs on
CPython floats: `bytes_to_ms(n) = (n / 2.0) / 16000.0 * 1000.0` performs
three IEEE-754 double operations, each rounding its exact result to the
nearest 53-bit significand (ties to even), and `ingested_ms += ...` rounds
once more per chunk.  The result is not always `n / 32` exactly: for
`n = 1001` the middle quotient `500.5 / 16000` is not a dyadic rational,
and the computed value `31.281249999999996` falls short of `31.28125`.
The model below (`Fl`, `roundD`, `bytesToMs`) implements this rounding
exactly over nonnegative rationals (numerator/denominator pairs), covering
the normal double range, which contains every value of this loop; Python's
`int(ingested_ms // 250.0)` equals `⌊ingested_ms / 250⌋` here because the
intermediate results of CPython float floor-division (`fmod`, a
subtraction and a division) are exactly representable at these magnitudes.
On chunk sizes that are multiples of 125 bytes every quantity is a dyadic
rational below the 53-bit limit, each rounding is the identity, and the
per-word unlock count reduces to `ingested_bytes / 8000` (250 ms of 16 kHz
16-bit mono audio per word). -/

/-- The fixed phrase of the offline simulator (line 224). -/
def fakeWords : List String := ["Hello", "Klarvia", "I", "have", "a", "headache"]

/-- Python `" ".join`. -/
def joinWords : List String → String
  | [] => ""
  | [w] => w
  | w :: ws => w ++ " " ++ joinWords ws

/-- One iteration of the emitter loop as seen from outside: the chunk
received from the audio queue (`none` on timeout), whether the client-done
event is set, and whether the 300 ms idle finalization threshold has been
crossed at this iteration. -/
structure FakeStep where
  recv : Option Nat
  doneSet : Bool
  idleOver : Bool
deriving Repr, DecidableEq

/-- A nonnegative rational, the value `n / d`; the carrier for exact
IEEE-754 double arithmetic.  Every double in this program is nonnegative
and in the normal range. -/
structure Fl where
  n : Nat
  d : Nat
deriving Repr, DecidableEq

def Fl.val (q : Fl) : ℚ := (q.n : ℚ) / q.d

def Fl.add (a b : Fl) : Fl := ⟨a.n * b.d + b.n * a.d, a.d * b.d⟩

def Fl.divNat (q : Fl) (k : Nat) : Fl := ⟨q.n, q.d * k⟩

def Fl.mulNat (q : Fl) (k : Nat) : Fl := ⟨q.n * k, q.d⟩

/-- Fuel-driven floor of the base-2 logarithm (kernel-reducible). -/
def log2fAux : Nat → Nat → Nat
  | 0, _ => 0
  | f+1, n => if 2 ≤ n then log2fAux f (n / 2) + 1 else 0

def flog2 (n : Nat) : Nat := log2fAux 200 n

/-- `2 ^ e ≤ q.val`, by cross-multiplication in ℕ. -/
def pqGe2 (q : Fl) (e : Int) : Bool :=
  if 0 ≤ e then decide (2 ^ e.toNat * q.d ≤ q.n)
  else decide (q.d ≤ q.n * 2 ^ (-e).toNat)

/-- The binade exponent of `q`: the `e` with `2 ^ e ≤ q.val < 2 ^ (e+1)`. -/
def roundExp (q : Fl) : Int :=
  let g : Int := (flog2 q.n : Int) - (flog2 q.d : Int)
  if pqGe2 q (g+1) then g+1 else if pqGe2 q g then g else g - 1

/-- IEEE-754 double rounding of a nonnegative rational: scale into
`[2^52, 2^53)`, take the nearest integer significand (ties to even), and
scale back.  Exact on representable inputs; correct round-to-nearest-even
on the normal range. -/
def roundD (q : Fl) : Fl :=
  if q.n = 0 then ⟨0, 1⟩
  else
    let e := roundExp q
    let sc : Fl := if 0 ≤ 52 - e then ⟨q.n * 2 ^ (52 - e).toNat, q.d⟩
      else ⟨q.n, q.d * 2 ^ (e - 52).toNat⟩
    let m := sc.n / sc.d
    let r2 := 2 * (sc.n - m * sc.d)
    let m2 := if sc.d < r2 then m + 1 else if r2 < sc.d then m
      else if m % 2 = 0 then m else m + 1
    if 0 ≤ 52 - e then ⟨m2, 2 ^ (52 - e).toNat⟩ else ⟨m2 * 2 ^ (e - 52).toNat, 1⟩

/-- Lines 233-235: `(n / 2.0) / 16000.0 * 1000.0`, one rounding per
float operation (`n` converts exactly, being far below `2^53`). -/
def bytesToMs (n : Nat) : Fl :=
  roundD ((roundD ((roundD ⟨n, 2⟩).divNat 16000)).mulNat 1000)

/-- Lines 240-244: a received chunk counts only when its length is
positive (`if n and n > 0`), and `ingested_ms += bytes_to_ms(n)` is one
more rounded float addition. -/
def ingestChunk (ing : Fl) : Option Nat → Fl
  | some m => if 0 < m then roundD (ing.add (bytesToMs m)) else ing
  | none => ing

theorem ingestChunk_none (ing : Fl) : ingestChunk ing none = ing := rfl

/-- The emitter loop (lines 237-276) over a trace of iterations, carrying
the unlocked word count, the ingested-milliseconds float, and whether the
first-partial timestamp has been set; `fb` is whether the session has seen
a first audio byte.  `allow = min(int(ingested_ms // 250.0), len(words))`
is `min (ing.n / (250 * ing.d)) 6` on the exact value of the float.  A
partial with the currently unlocked prefix is emitted whenever new words
unlock; the final with the full phrase is emitted (after any
same-iteration partial) once all words are unlocked and the client is done
or the idle threshold passed.  An exhausted trace is a session cancelled
before the final. -/
def fakeEmitter (fb : Bool) : List FakeStep → Nat → Fl → Bool → List QMsg
  | [], _, _, _ => []
  | step :: rest, built, ingested, fpSent =>
    let ingested2 := ingestChunk ingested step.recv
    let allow := min (ingested2.n / (250 * ingested2.d)) fakeWords.length
    let built2 := if built < allow then allow else built
    let pmsgs :=
      if built < allow then
        (if fpSent = false ∧ fb = true then [QMsg.debugMsg "stt_first_partial"] else []) ++
          [QMsg.partialMsg (joinWords (fakeWords.take allow))]
      else []
    let fpSent2 := if built < allow ∧ fb = true then true else fpSent
    if fakeWords.length ≤ built2 ∧ (step.doneSet || step.idleOver) = true then
      pmsgs ++ [QMsg.finalMsg (joinWords fakeWords)]
    else pmsgs ++ fakeEmitter fb rest built2 ingested2 fpSent2

/-- The iterations of a phase in which the session streams non-empty audio
chunks: one chunk arrives per iteration, the client is not done, and no
idle threshold passes. -/
def chunkSteps (cs : List Nat) : List FakeStep :=
  cs.map (fun n => ⟨some n, false, false⟩)

/-- The iteration right after the stop frame: the queue is empty (timeout)
and the client-done event is set. -/
def stopStep : FakeStep := ⟨none, true, false⟩

def isFinalMsg : QMsg → Bool
  | .finalMsg _ => true
  | _ => false

theorem chunkSteps_cons (n : Nat) (cs : List Nat) :
    chunkSteps (n :: cs) = FakeStep.mk (some n) false false :: chunkSteps cs := rfl

theorem log2fAux_spec : ∀ (f n : Nat), 0 < n → n < 2 ^ f →
    2 ^ log2fAux f n ≤ n ∧ n < 2 ^ (log2fAux f n + 1) := by
  intro f
  induction f with
  | zero => intro n h1 h2; omega
  | succ f ih =>
    intro n h1 h2
    by_cases h : 2 ≤ n
    · have hdp : 0 < n / 2 := by omega
      have hdb : n / 2 < 2 ^ f := by
        have h2b : n < 2 ^ f * 2 := by rw [pow_succ] at h2; exact h2
        omega
      obtain ⟨hl, hr⟩ := ih (n / 2) hdp hdb
      have hunf : log2fAux (f+1) n = log2fAux f (n / 2) + 1 := by
        simp [log2fAux, h]
      rw [hunf]
      have hp1 : 2 ^ (log2fAux f (n / 2) + 1) = 2 * 2 ^ (log2fAux f (n / 2)) := by ring
      have hp2 : 2 ^ (log2fAux f (n / 2) + 1 + 1) = 2 * 2 ^ (log2fAux f (n / 2) + 1) := by
        ring
      omega
    · have hunf : log2fAux (f+1) n = 0 := by simp [log2fAux, h]
      rw [hunf]
      omega

theorem flog2_spec (n : Nat) (h1 : 0 < n) (h2 : n < 2 ^ 200) :
    2 ^ flog2 n ≤ n ∧ n < 2 ^ (flog2 n + 1) :=
  log2fAux_spec 200 n h1 h2

theorem pqGe2_spec (q : Fl) (e : Int) (hd : q.d ≠ 0) :
    pqGe2 q e = true ↔ (2:ℚ) ^ e ≤ q.val := by
  have hdpos : (0:ℚ) < (q.d : ℚ) := by
    exact_mod_cast Nat.pos_of_ne_zero hd
  unfold pqGe2 Fl.val
  by_cases he : 0 ≤ e
  · rw [if_pos he]
    rw [decide_eq_true_eq]
    rw [show (2:ℚ) ^ e = (2:ℚ) ^ e.toNat by
      rw [← Int.toNat_of_nonneg he, zpow_natCast, Int.toNat_of_nonneg he]]
    rw [le_div_iff₀ hdpos]
    constructor
    · intro hle
      calc (2:ℚ) ^ e.toNat * q.d = ((2 ^ e.toNat * q.d : ℕ) : ℚ) := by push_cast; ring
      _ ≤ q.n := by exact_mod_cast hle
    · intro hle
      have hc : ((2 ^ e.toNat * q.d : ℕ) : ℚ) ≤ (q.n : ℚ) := by
        calc ((2 ^ e.toNat * q.d : ℕ) : ℚ) = (2:ℚ) ^ e.toNat * q.d := by push_cast; ring
        _ ≤ q.n := hle
      exact_mod_cast hc
  · rw [if_neg he]
    rw [decide_eq_true_eq]
    have hneg : 0 ≤ -e := by omega
    have he2 : e = -((-e).toNat : ℤ) := by omega
    have h2 : (2:ℚ) ^ e = 1 / (2:ℚ) ^ (-e).toNat := by
      calc (2:ℚ) ^ e = (2:ℚ) ^ (-((-e).toNat : ℤ)) := by rw [← he2]
      _ = ((2:ℚ) ^ (((-e).toNat : ℕ) : ℤ))⁻¹ := by rw [zpow_neg]
      _ = ((2:ℚ) ^ ((-e).toNat : ℕ))⁻¹ := by rw [zpow_natCast]
      _ = 1 / (2:ℚ) ^ (-e).toNat := by rw [one_div]
    rw [h2, div_le_div_iff₀ (by positivity) hdpos]
    constructor
    · intro hle
      calc (1:ℚ) * q.d = ((q.d : ℕ) : ℚ) := by ring
      _ ≤ ((q.n * 2 ^ (-e).toNat : ℕ) : ℚ) := by exact_mod_cast hle
      _ = (q.n : ℚ) * 2 ^ (-e).toNat := by push_cast; ring
    · intro hle
      have hc : ((q.d : ℕ) : ℚ) ≤ ((q.n * 2 ^ (-e).toNat : ℕ) : ℚ) := by
        calc ((q.d : ℕ) : ℚ) = (1:ℚ) * q.d := by ring
        _ ≤ (q.n : ℚ) * 2 ^ (-e).toNat := hle
        _ = ((q.n * 2 ^ (-e).toNat : ℕ) : ℚ) := by push_cast; ring
      exact_mod_cast hc

theorem zpow_two_mono {a b : ℤ} (h : a ≤ b) : (2:ℚ) ^ a ≤ (2:ℚ) ^ b :=
  zpow_le_zpow_right₀ one_le_two h

theorem exp_unique {v : ℚ} {a b : ℤ} (h1 : (2:ℚ) ^ a ≤ v) (h2 : v < 2 ^ (a+1))
    (h3 : (2:ℚ) ^ b ≤ v) (h4 : v < 2 ^ (b+1)) : a = b := by
  by_contra hne
  rcases lt_or_gt_of_ne hne with h | h
  · have hle : (2:ℚ) ^ (a+1) ≤ 2 ^ b := zpow_two_mono (by omega)
    exact absurd (lt_of_lt_of_le h2 (le_trans hle h3)) (lt_irrefl v)
  · have hle : (2:ℚ) ^ (b+1) ≤ 2 ^ a := zpow_two_mono (by omega)
    exact absurd (lt_of_lt_of_le h4 (le_trans hle h1)) (lt_irrefl v)

theorem roundExp_spec (q : Fl) (hd : q.d ≠ 0) (hn : q.n ≠ 0)
    (hnb : q.n < 2 ^ 200) (hdb : q.d < 2 ^ 200) :
    (2:ℚ) ^ (roundExp q) ≤ q.val ∧ q.val < 2 ^ (roundExp q + 1) := by
  have hdpos : (0:ℚ) < (q.d : ℚ) := by exact_mod_cast Nat.pos_of_ne_zero hd
  obtain ⟨hnl, hnr⟩ := flog2_spec q.n (Nat.pos_of_ne_zero hn) hnb
  obtain ⟨hdl, hdr⟩ := flog2_spec q.d (Nat.pos_of_ne_zero hd) hdb
  set Ln := flog2 q.n with hLn
  set Ld := flog2 q.d with hLd
  set g : Int := (Ln : Int) - (Ld : Int) with hg
  have hcast : ∀ (m : ℕ), (2:ℚ) ^ ((m : ℤ)) = (2:ℚ) ^ m := fun m => zpow_natCast 2 m
  have hub : q.val < 2 ^ (g + 1) := by
    have hcross : (q.n : ℚ) * 2 ^ Ld < 2 ^ (Ln + 1) * q.d := by
      calc (q.n : ℚ) * 2 ^ Ld < 2 ^ (Ln + 1) * 2 ^ Ld := by
            have hx : (q.n : ℚ) < 2 ^ (Ln + 1) := by exact_mod_cast hnr
            exact mul_lt_mul_of_pos_right hx (by positivity)
      _ ≤ 2 ^ (Ln + 1) * q.d := by
            have hx : ((2:ℚ)) ^ Ld ≤ q.d := by exact_mod_cast hdl
            exact mul_le_mul_of_nonneg_left hx (by positivity)
    have hdiv : q.val < ((2:ℚ) ^ (Ln + 1)) / (2 ^ Ld) := by
      rw [Fl.val, div_lt_div_iff₀ hdpos (by positivity)]
      exact hcross
    have heq2 : ((2:ℚ) ^ (Ln + 1)) / (2 ^ Ld) = 2 ^ (g + 1) := by
      rw [← hcast (Ln + 1), ← hcast Ld, ← zpow_sub₀ (by norm_num : (2:ℚ) ≠ 0)]
      congr 1
      rw [hg]
      push_cast
      ring
    rw [← heq2]
    exact hdiv
  have hlb : (2:ℚ) ^ (g - 1) < q.val := by
    have hcross : (2:ℚ) ^ Ln * q.d < (q.n : ℚ) * 2 ^ (Ld + 1) := by
      calc ((2:ℚ)) ^ Ln * q.d < 2 ^ Ln * 2 ^ (Ld + 1) := by
            have hx : (q.d : ℚ) < 2 ^ (Ld + 1) := by exact_mod_cast hdr
            exact mul_lt_mul_of_pos_left hx (by positivity)
      _ ≤ (q.n : ℚ) * 2 ^ (Ld + 1) := by
            have hx : ((2:ℚ)) ^ Ln ≤ q.n := by exact_mod_cast hnl
            exact mul_le_mul_of_nonneg_right hx (by positivity)
    have hdiv : ((2:ℚ) ^ Ln) / (2 ^ (Ld + 1)) < q.val := by
      rw [Fl.val, div_lt_div_iff₀ (by positivity) hdpos]
      exact hcross
    have heq3 : (2:ℚ) ^ (g - 1) = ((2:ℚ) ^ Ln) / (2 ^ (Ld + 1)) := by
      rw [← hcast Ln, ← hcast (Ld + 1), ← zpow_sub₀ (by norm_num : (2:ℚ) ≠ 0)]
      congr 1
      rw [hg]
      push_cast
      ring
    rw [heq3]
    exact hdiv
  unfold roundExp
  rw [← hLn, ← hLd, ← hg]
  by_cases c1 : pqGe2 q (g + 1)
  · exact absurd ((pqGe2_spec q (g+1) hd).mp c1) (not_le.mpr hub)
  · rw [if_neg c1]
    by_cases c2 : pqGe2 q g
    · rw [if_pos c2]
      exact ⟨(pqGe2_spec q g hd).mp c2, hub⟩
    · rw [if_neg c2]
      have hlt : q.val < 2 ^ g := by
        by_contra hcon
        exact c2 ((pqGe2_spec q g hd).mpr (not_lt.mp hcon))
      constructor
      · exact le_of_lt hlb
      · rw [show g - 1 + 1 = g by ring]
        exact hlt

/-- Rounding is the identity on representable inputs: a value `k / 2^j`
with a 53-bit `k` comes back unchanged (in the canonical scaled
representation). -/
theorem roundD_dyadic (q : Fl) (k j : Nat) (hd : q.d ≠ 0) (hn : q.n ≠ 0)
    (hk : k < 2 ^ 53) (hnb : q.n < 2 ^ 200) (hdb : q.d < 2 ^ 200)
    (hval : q.n * 2 ^ j = k * q.d) :
    roundD q = ⟨k * 2 ^ (52 - flog2 k), 2 ^ (52 - flog2 k + j)⟩ := by
  have hdpos : 0 < q.d := Nat.pos_of_ne_zero hd
  have hkpos : 0 < k := by
    rcases Nat.eq_zero_or_pos k with h0 | h; swap
    · exact h
    · rw [h0, zero_mul] at hval
      exact absurd hval (by positivity)
  obtain ⟨hkl, hkr⟩ := flog2_spec k hkpos (lt_trans hk (by norm_num))
  set L := flog2 k with hL
  have hL52 : L ≤ 52 := by
    by_contra hc
    have hx : 2 ^ 53 ≤ 2 ^ L := Nat.pow_le_pow_right (by norm_num) (by omega)
    omega
  have hdposq : (0:ℚ) < (q.d : ℚ) := by exact_mod_cast hdpos
  have hvq : q.val = (k:ℚ) / 2 ^ j := by
    rw [Fl.val, div_eq_div_iff (ne_of_gt hdposq) (by positivity : (0:ℚ) < 2 ^ j).ne']
    exact_mod_cast hval
  have hcast : ∀ (m : ℕ), (2:ℚ) ^ ((m : ℤ)) = (2:ℚ) ^ m := fun m => zpow_natCast 2 m
  have hvl : (2:ℚ) ^ ((L:ℤ) - j) ≤ q.val := by
    rw [hvq]
    have h1 : (2:ℚ) ^ ((L:ℤ) - j) = (2:ℚ) ^ L / 2 ^ j := by
      rw [← hcast L, ← hcast j, ← zpow_sub₀ (by norm_num : (2:ℚ) ≠ 0)]
    rw [h1]
    apply div_le_div_of_nonneg_right ?_ (by positivity)
    exact_mod_cast hkl
  have hvu : q.val < (2:ℚ) ^ ((L:ℤ) - j + 1) := by
    rw [hvq]
    have h1 : (2:ℚ) ^ ((L:ℤ) - j + 1) = (2:ℚ) ^ (L + 1) / 2 ^ j := by
      rw [← hcast (L + 1), ← hcast j, ← zpow_sub₀ (by norm_num : (2:ℚ) ≠ 0)]
      congr 1
      push_cast
      ring
    rw [h1]
    apply div_lt_div_of_pos_right ?_ (by positivity)
    exact_mod_cast hkr
  obtain ⟨hel, her⟩ := roundExp_spec q hd hn hnb hdb
  have he : roundExp q = (L:ℤ) - j := exp_unique hel her hvl hvu
  have hge : (0:ℤ) ≤ 52 - ((L:ℤ) - j) := by omega
  have htn : ((52:ℤ) - ((L:ℤ) - j)).toNat = 52 - L + j := by omega
  have hscn : q.n * 2 ^ (52 - L + j) = k * 2 ^ (52 - L) * q.d := by
    have hsplit : 2 ^ (52 - L + j) = 2 ^ j * 2 ^ (52 - L) := by
      rw [← pow_add]
      congr 1
      omega
    rw [hsplit, ← mul_assoc, hval]
    ring
  have hmdiv : k * 2 ^ (52 - L) * q.d / q.d = k * 2 ^ (52 - L) :=
    Nat.mul_div_cancel _ hdpos
  simp only [roundD]
  rw [if_neg hn, he, if_pos hge, if_pos hge]
  dsimp only
  rw [htn, hscn, hmdiv, Nat.sub_self, Nat.mul_zero]
  rw [if_neg (Nat.not_lt_zero q.d), if_pos hdpos]

theorem flog2_le_52 (k : Nat) (h0 : 0 < k) (hk : k < 2 ^ 53) : flog2 k ≤ 52 := by
  obtain ⟨hl, hr⟩ := flog2_spec k h0 (lt_trans hk (by norm_num))
  by_contra hc
  have hx : 2 ^ 53 ≤ 2 ^ flog2 k := Nat.pow_le_pow_right (by norm_num) (by omega)
  omega

theorem pow52sub_le (L : Nat) : 2 ^ (52 - L) ≤ 2 ^ 52 :=
  Nat.pow_le_pow_right (by norm_num) (by omega)

theorem mul_pow52sub_lt (k : Nat) (h0 : 0 < k) (hk : k < 2 ^ 53) :
    k * 2 ^ (52 - flog2 k) < 2 ^ 53 := by
  obtain ⟨hl, hr⟩ := flog2_spec k h0 (lt_trans hk (by norm_num))
  have hL := flog2_le_52 k h0 hk
  calc k * 2 ^ (52 - flog2 k) < 2 ^ (flog2 k + 1) * 2 ^ (52 - flog2 k) :=
        Nat.mul_lt_mul_of_lt_of_le hr (le_refl _) (by positivity)
  _ = 2 ^ 53 := by
        rw [← pow_add]
        congr 1
        omega

/-- On a multiple of 125 bytes every float operation in `bytes_to_ms` is
exact: the result is `n / 32` milliseconds on the nose. -/
theorem bytesToMs_exact (t : Nat) (ht0 : 0 < t) (htb : t < 2 ^ 45) :
    bytesToMs (125 * t) =
      ⟨125 * t * 2 ^ (52 - flog2 (125 * t)), 2 ^ (52 - flog2 (125 * t) + 5)⟩ := by
  have hn0 : 125 * t ≠ 0 := by positivity
  have hnp : 0 < 125 * t := by positivity
  have hnb : 125 * t < 2 ^ 53 := by
    calc 125 * t < 125 * 2 ^ 45 := by omega
    _ < 2 ^ 53 := by norm_num
  set L1 := flog2 (125 * t) with hL1
  have hL1b : L1 ≤ 52 := flog2_le_52 _ hnp hnb
  have h1 : roundD ⟨125 * t, 2⟩ = ⟨125 * t * 2 ^ (52 - L1), 2 ^ (52 - L1 + 1)⟩ := by
    apply roundD_dyadic ⟨125 * t, 2⟩ (125 * t) 1 (by norm_num) hn0 hnb
      (by calc (125 * t : Nat) < 2 ^ 53 := hnb
          _ < 2 ^ 200 := by norm_num)
      (by norm_num)
    show 125 * t * 2 ^ 1 = 125 * t * 2
    ring
  set L2 := flog2 t with hL2
  have htb2 : t < 2 ^ 53 := by omega
  have hL2b : L2 ≤ 52 := flog2_le_52 _ ht0 htb2
  have hq2 : (roundD ⟨125 * t, 2⟩).divNat 16000 =
      ⟨125 * t * 2 ^ (52 - L1), 2 ^ (52 - L1 + 1) * 16000⟩ := by
    rw [h1]
    rfl
  have h2 : roundD ⟨125 * t * 2 ^ (52 - L1), 2 ^ (52 - L1 + 1) * 16000⟩ =
      ⟨t * 2 ^ (52 - L2), 2 ^ (52 - L2 + 8)⟩ := by
    apply roundD_dyadic _ t 8 (by positivity) (by positivity) htb2
    · show 125 * t * 2 ^ (52 - L1) < 2 ^ 200
      calc 125 * t * 2 ^ (52 - L1) < 2 ^ 53 := mul_pow52sub_lt (125 * t) hnp hnb
      _ < 2 ^ 200 := by norm_num
    · show 2 ^ (52 - L1 + 1) * 16000 < 2 ^ 200
      calc 2 ^ (52 - L1 + 1) * 16000 ≤ 2 ^ 53 * 16000 := by
            have hx : 2 ^ (52 - L1 + 1) ≤ 2 ^ 53 :=
              Nat.pow_le_pow_right (by norm_num) (by omega)
            exact Nat.mul_le_mul_right _ hx
      _ < 2 ^ 200 := by norm_num
    · show 125 * t * 2 ^ (52 - L1) * 2 ^ 8 = t * (2 ^ (52 - L1 + 1) * 16000)
      have hsp : 2 ^ (52 - L1 + 1) = 2 ^ (52 - L1) * 2 := by rw [pow_succ]
      rw [hsp]
      ring
  have hq3 : (⟨t * 2 ^ (52 - L2), 2 ^ (52 - L2 + 8)⟩ : Fl).mulNat 1000 =
      ⟨t * 2 ^ (52 - L2) * 1000, 2 ^ (52 - L2 + 8)⟩ := rfl
  have h3 : roundD ⟨t * 2 ^ (52 - L2) * 1000, 2 ^ (52 - L2 + 8)⟩ =
      ⟨125 * t * 2 ^ (52 - L1), 2 ^ (52 - L1 + 5)⟩ := by
    have hx := roundD_dyadic ⟨t * 2 ^ (52 - L2) * 1000, 2 ^ (52 - L2 + 8)⟩ (125 * t) 5
      (by positivity) (by positivity) hnb
      (by show t * 2 ^ (52 - L2) * 1000 < 2 ^ 200
          calc t * 2 ^ (52 - L2) * 1000 < 2 ^ 53 * 1000 :=
                Nat.mul_lt_mul_of_lt_of_le (mul_pow52sub_lt t ht0 htb2) (le_refl _)
                  (by norm_num)
          _ < 2 ^ 200 := by norm_num)
      (by show 2 ^ (52 - L2 + 8) < 2 ^ 200
          exact Nat.pow_lt_pow_right (by norm_num) (by omega))
      (by show t * 2 ^ (52 - L2) * 1000 * 2 ^ 5 = 125 * t * (2 ^ (52 - L2 + 8))
          have hsp : 2 ^ (52 - L2 + 8) = 2 ^ (52 - L2) * 2 ^ 8 := by rw [pow_add]
          rw [hsp]
          ring)
    rw [hx, hL1]
  show roundD ((roundD ((roundD ⟨125 * t, 2⟩).divNat 16000)).mulNat 1000) = _
  rw [hq2, h2, hq3, h3]

/-- The loop invariant on the ingested-milliseconds float: its exact value
is `S / 32` for `S` the total ingested bytes, in a representation with
53-bit numerator and small power-of-two denominator. -/
def goodRep (a : Fl) (S : Nat) : Prop :=
  a.d ≠ 0 ∧ 32 * a.n = S * a.d ∧ a.n ≤ 2 ^ 53 ∧ a.d ≤ 2 ^ 57

theorem goodRep_init : goodRep ⟨0, 1⟩ 0 := by
  refine ⟨by norm_num, by norm_num, by norm_num, by norm_num⟩

/-- `int(ingested_ms // 250.0)` on a float worth `S / 32` ms is `S / 8000`
in integer division. -/
theorem goodRep_floor (a : Fl) (S : Nat) (h : goodRep a S) :
    a.n / (250 * a.d) = S / 8000 := by
  obtain ⟨hd, hval, -, -⟩ := h
  have hdpos : 0 < a.d := Nat.pos_of_ne_zero hd
  calc a.n / (250 * a.d) = 32 * a.n / (32 * (250 * a.d)) :=
        (Nat.mul_div_mul_left _ _ (by norm_num)).symm
  _ = S * a.d / (8000 * a.d) := by rw [hval]; ring_nf
  _ = S / 8000 := by
      rw [mul_comm 8000 a.d, mul_comm S a.d]
      exact Nat.mul_div_mul_left _ _ hdpos

/-- One rounded accumulation step is exact on a 125-byte-multiple chunk:
`roundD (ing + bytes_to_ms n)` is worth exactly `(S + n) / 32` ms. -/
theorem roundD_add_exact (a : Fl) (S n : Nat) (hrep : goodRep a S)
    (hn0 : 0 < n) (h125 : 125 ∣ n) (hbnd : S + n ≤ 2 ^ 45) :
    roundD (a.add (bytesToMs n)) =
      ⟨(S + n) * 2 ^ (52 - flog2 (S + n)), 2 ^ (52 - flog2 (S + n) + 5)⟩ := by
  obtain ⟨hd, hval, hnb, hdb⟩ := hrep
  obtain ⟨t, rfl⟩ := h125
  have ht0 : 0 < t := by omega
  have htb : t < 2 ^ 45 := by
    have hx : 125 * t ≤ 2 ^ 45 := by omega
    omega
  have hb := bytesToMs_exact t ht0 htb
  set Ln := flog2 (125 * t) with hLn
  have hnp : 0 < 125 * t := by positivity
  have hnbb : 125 * t < 2 ^ 53 := by
    have hx : (125 * t : Nat) ≤ 2 ^ 45 := by omega
    calc (125 * t : Nat) ≤ 2 ^ 45 := hx
    _ < 2 ^ 53 := by norm_num
  have hLnb : Ln ≤ 52 := flog2_le_52 _ hnp hnbb
  have hadd : a.add (bytesToMs (125 * t)) =
      ⟨a.n * 2 ^ (52 - Ln + 5) + 125 * t * 2 ^ (52 - Ln) * a.d,
        a.d * 2 ^ (52 - Ln + 5)⟩ := by
    rw [hb]
    rfl
  rw [hadd]
  apply roundD_dyadic _ (S + 125 * t) 5
  · positivity
  · have hx : 0 < 125 * t * 2 ^ (52 - Ln) * a.d := by
      have := Nat.pos_of_ne_zero hd
      positivity
    positivity
  · show S + 125 * t < 2 ^ 53
    calc S + 125 * t ≤ 2 ^ 45 := hbnd
    _ < 2 ^ 53 := by norm_num
  · show a.n * 2 ^ (52 - Ln + 5) + 125 * t * 2 ^ (52 - Ln) * a.d < 2 ^ 200
    have h1 : a.n * 2 ^ (52 - Ln + 5) ≤ 2 ^ 53 * 2 ^ 57 := by
      apply Nat.mul_le_mul hnb
      exact Nat.pow_le_pow_right (by norm_num) (by omega)
    have h2 : 125 * t * 2 ^ (52 - Ln) * a.d ≤ 2 ^ 53 * 2 ^ 57 := by
      apply Nat.mul_le_mul _ hdb
      exact le_of_lt (mul_pow52sub_lt _ hnp hnbb)
    calc a.n * 2 ^ (52 - Ln + 5) + 125 * t * 2 ^ (52 - Ln) * a.d ≤
          2 ^ 53 * 2 ^ 57 + 2 ^ 53 * 2 ^ 57 := Nat.add_le_add h1 h2
    _ < 2 ^ 200 := by norm_num
  · show a.d * 2 ^ (52 - Ln + 5) < 2 ^ 200
    calc a.d * 2 ^ (52 - Ln + 5) ≤ 2 ^ 57 * 2 ^ 57 := by
          apply Nat.mul_le_mul hdb
          exact Nat.pow_le_pow_right (by norm_num) (by omega)
    _ < 2 ^ 200 := by norm_num
  · show (a.n * 2 ^ (52 - Ln + 5) + 125 * t * 2 ^ (52 - Ln) * a.d) * 2 ^ 5 =
        (S + 125 * t) * (a.d * 2 ^ (52 - Ln + 5))
    have hsp : 2 ^ (52 - Ln + 5) = 2 ^ (52 - Ln) * 2 ^ 5 := by rw [pow_add]
    rw [hsp]
    have hstep : (a.n * (2 ^ (52 - Ln) * 2 ^ 5) + 125 * t * 2 ^ (52 - Ln) * a.d) * 2 ^ 5 =
        32 * a.n * (2 ^ (52 - Ln) * 2 ^ 5) + 125 * t * (2 ^ (52 - Ln) * 2 ^ 5) * a.d := by
      ring
    rw [hstep, hval]
    ring

theorem goodRep_step (S n : Nat) (hn0 : 0 < n) (hSn : S + n ≤ 2 ^ 45) :
    goodRep ⟨(S + n) * 2 ^ (52 - flog2 (S + n)), 2 ^ (52 - flog2 (S + n) + 5)⟩ (S + n) := by
  have hp : 0 < S + n := by omega
  have hb : S + n < 2 ^ 53 := by
    calc S + n ≤ 2 ^ 45 := hSn
    _ < 2 ^ 53 := by norm_num
  have hL := flog2_le_52 _ hp hb
  refine ⟨by positivity, ?_, ?_, ?_⟩
  · show 32 * ((S + n) * 2 ^ (52 - flog2 (S + n))) = (S + n) * 2 ^ (52 - flog2 (S + n) + 5)
    have hsp : 2 ^ (52 - flog2 (S + n) + 5) = 2 ^ (52 - flog2 (S + n)) * 32 := by
      rw [pow_add]
      norm_num
    rw [hsp]
    ring
  · exact le_of_lt (mul_pow52sub_lt _ hp hb)
  · exact Nat.pow_le_pow_right (by norm_num) (by omega)

/-- One chunk-bearing iteration with no finalization trigger, for a
125-byte-multiple chunk: the word count moves up to
`min ((S + n) / 8000) 6`, a partial goes out exactly when it strictly
increases, and the loop continues with the exactly-accumulated float. -/
theorem fakeEmitter_chunk_step (fb : Bool) (n : Nat) (rest : List FakeStep)
    (built S : Nat) (ing : Fl) (fp : Bool)
    (h0 : 0 < n) (h125 : 125 ∣ n) (hrep : goodRep ing S) (hbnd : S + n ≤ 2 ^ 45)
    (hble : built ≤ min ((S + n) / 8000) fakeWords.length) :
    ∃ fp3, fakeEmitter fb (FakeStep.mk (some n) false false :: rest) built ing fp =
      (if built < min ((S + n) / 8000) fakeWords.length then
        (if fp = false ∧ fb = true then [QMsg.debugMsg "stt_first_partial"] else []) ++
          [QMsg.partialMsg (joinWords (fakeWords.take
            (min ((S + n) / 8000) fakeWords.length)))]
      else []) ++
      fakeEmitter fb rest (min ((S + n) / 8000) fakeWords.length)
        ⟨(S + n) * 2 ^ (52 - flog2 (S + n)), 2 ^ (52 - flog2 (S + n) + 5)⟩ fp3 := by
  refine ⟨if built < min ((S + n) / 8000) fakeWords.length ∧ fb = true then true
    else fp, ?_⟩
  have hing : ingestChunk ing (some n) =
      ⟨(S + n) * 2 ^ (52 - flog2 (S + n)), 2 ^ (52 - flog2 (S + n) + 5)⟩ := by
    show (if 0 < n then roundD (ing.add (bytesToMs n)) else ing) = _
    rw [if_pos h0, roundD_add_exact ing S n hrep h0 h125 hbnd]
  have hallow : ((S + n) * 2 ^ (52 - flog2 (S + n))) /
      (250 * 2 ^ (52 - flog2 (S + n) + 5)) = (S + n) / 8000 :=
    goodRep_floor _ _ (goodRep_step S n h0 hbnd)
  simp only [fakeEmitter]
  rw [hing]
  dsimp only
  rw [hallow]
  rw [if_neg (fun hc => absurd hc.2 (by decide))]
  by_cases hE : built < min ((S + n) / 8000) fakeWords.length
  · rw [if_pos hE, if_pos hE]
  · rw [if_neg hE, if_neg hE, le_antisymm hble (not_lt.mp hE)]

/-- Through a chunk-streaming phase of positive 125-byte-multiple chunks
the emitter emits no final, keeps the word count at
`min (ingested / 8000) 6`, and emits at least one partial whenever the
phase unlocks any new word. -/
theorem fakeEmitter_chunks (fb : Bool) (cs : List Nat) :
    ∀ (tail : List FakeStep) (S : Nat) (ing : Fl) (fp : Bool),
    (∀ n ∈ cs, 0 < n) → (∀ n ∈ cs, 125 ∣ n) → goodRep ing S → S + cs.sum ≤ 2 ^ 45 →
    ∃ P ing2 fp2, goodRep ing2 (S + cs.sum) ∧
      fakeEmitter fb (chunkSteps cs ++ tail) (min (S / 8000) fakeWords.length) ing fp =
        P ++ fakeEmitter fb tail (min ((S + cs.sum) / 8000) fakeWords.length) ing2 fp2 ∧
      (∀ m ∈ P, isFinalMsg m = false) ∧
      (min (S / 8000) fakeWords.length < min ((S + cs.sum) / 8000) fakeWords.length →
        ∃ t, QMsg.partialMsg t ∈ P) := by
  induction cs with
  | nil =>
    intro tail S ing fp _ _ hrep hbnd
    exact ⟨[], ing, fp, by simpa using hrep, by simp [chunkSteps], by simp,
      fun h => absurd h (by simp)⟩
  | cons n cs ih =>
    intro tail S ing fp hpos hdiv hrep hbnd
    have h0 : 0 < n := hpos n (by simp)
    have h125 : 125 ∣ n := hdiv n (by simp)
    have hpos2 : ∀ m ∈ cs, 0 < m := fun m hm => hpos m (by simp [hm])
    have hdiv2 : ∀ m ∈ cs, 125 ∣ m := fun m hm => hdiv m (by simp [hm])
    have hsum0 : (n :: cs).sum = n + cs.sum := List.sum_cons
    have hbnd1 : S + n ≤ 2 ^ 45 := by omega
    have hbnd2 : (S + n) + cs.sum ≤ 2 ^ 45 := by omega
    have hmono : min (S / 8000) fakeWords.length ≤
        min ((S + n) / 8000) fakeWords.length :=
      min_le_min (Nat.div_le_div_right (Nat.le_add_right S n)) (le_refl _)
    obtain ⟨fp3, hstep⟩ := fakeEmitter_chunk_step fb n (chunkSteps cs ++ tail)
      (min (S / 8000) fakeWords.length) S ing fp h0 h125 hrep hbnd1 hmono
    obtain ⟨P, ing2, fp2, hrep2, heq, hnf, hpart⟩ :=
      ih tail (S + n)
        ⟨(S + n) * 2 ^ (52 - flog2 (S + n)), 2 ^ (52 - flog2 (S + n) + 5)⟩ fp3
        hpos2 hdiv2 (goodRep_step S n h0 hbnd1) hbnd2
    have hsum3 : S + (n :: cs).sum = (S + n) + cs.sum := by omega
    refine ⟨(if min (S / 8000) fakeWords.length <
          min ((S + n) / 8000) fakeWords.length then
        (if fp = false ∧ fb = true then [QMsg.debugMsg "stt_first_partial"] else []) ++
          [QMsg.partialMsg (joinWords (fakeWords.take
            (min ((S + n) / 8000) fakeWords.length)))]
      else []) ++ P, ing2, fp2, ?_, ?_, ?_, ?_⟩
    · rw [hsum3]
      exact hrep2
    · rw [chunkSteps_cons, List.cons_append, hstep, heq, hsum3, List.append_assoc]
    · intro m hm
      rcases List.mem_append.mp hm with hm | hm
      · split at hm
        · rcases List.mem_append.mp hm with hm | hm
          · split at hm
            · rw [List.mem_singleton.mp hm]
              rfl
            · cases hm
          · rw [List.mem_singleton.mp hm]
            rfl
        · cases hm
      · exact hnf m hm
    · intro hlt
      by_cases hE : min (S / 8000) fakeWords.length <
          min ((S + n) / 8000) fakeWords.length
      · refine ⟨joinWords (fakeWords.take (min ((S + n) / 8000) fakeWords.length)), ?_⟩
        rw [if_pos hE]
        simp
      · have hba : min (S / 8000) fakeWords.length =
            min ((S + n) / 8000) fakeWords.length :=
          le_antisymm hmono (not_lt.mp hE)
        obtain ⟨t, ht⟩ := hpart (by rw [← hba, ← hsum3]; exact hlt)
        exact ⟨t, by simp [ht]⟩

/-- At the post-stop iteration with at least 1500 ms ingested (all words
unlocked) the emitter emits exactly the final with the full phrase. -/
theorem fakeEmitter_stop (fb fp : Bool) (S : Nat) (ing : Fl) (hrep : goodRep ing S)
    (h48 : 48000 ≤ S) :
    fakeEmitter fb [stopStep] (min (S / 8000) fakeWords.length) ing fp =
      [QMsg.finalMsg (joinWords fakeWords)] := by
  have hallow : ing.n / (250 * ing.d) = S / 8000 := goodRep_floor ing S hrep
  have hmin : min (S / 8000) fakeWords.length = fakeWords.length := by
    apply min_eq_right
    show fakeWords.length ≤ S / 8000
    have hdd : 48000 / 8000 ≤ S / 8000 := Nat.div_le_div_right h48
    simpa [fakeWords] using hdd
  simp only [fakeEmitter, stopStep]
  rw [ingestChunk_none, hallow, hmin]
  rw [if_neg (lt_irrefl _), if_neg (lt_irrefl _)]
  rw [if_pos ⟨le_refl _, by decide⟩]
  rfl

/-- C8 (amended).  With the offline simulator active, a session that
streams any sequence of non-zero-length audio chunks in whole 125-byte
frames (the granularity at which the pacing floats are exact; 125 bytes is
3.90625 ms at 16 kHz, 16-bit mono) totalling at least 48000 bytes (1500 ms
of audio, one word unlocking per 8000 bytes, i.e. per ~250 ms of
cumulative ingested audio) and at most 2^45 bytes, and then sends a stop
frame, gets at least one `partial` before the final, nothing final-typed
before it, and a final whose text is exactly the simulator's complete
fixed phrase.  Without the 125-byte granularity the guarantee fails: on an
adversarial chunking of the same 48000 bytes the float `ingested_ms` sums
to just under 1500.0 and the final never fires. -/
theorem C8_simulator_pacing (cs : List Nat) (fb fp : Bool)
    (hpos : ∀ n ∈ cs, 0 < n) (hdiv : ∀ n ∈ cs, 125 ∣ n)
    (hsum : 48000 ≤ cs.sum) (hbnd : cs.sum ≤ 2 ^ 45) :
    ∃ P, fakeEmitter fb (chunkSteps cs ++ [stopStep]) 0 ⟨0, 1⟩ fp =
        P ++ [QMsg.finalMsg "Hello Klarvia I have a headache"] ∧
      (∃ t, QMsg.partialMsg t ∈ P) ∧
      ∀ m ∈ P, isFinalMsg m = false := by
  obtain ⟨P, ing2, fp2, hrep2, heq, hnf, hpart⟩ :=
    fakeEmitter_chunks fb cs [stopStep] 0 ⟨0, 1⟩ fp hpos hdiv goodRep_init (by omega)
  have heq2 : fakeEmitter fb (chunkSteps cs ++ [stopStep]) 0 ⟨0, 1⟩ fp =
      P ++ fakeEmitter fb [stopStep] (min ((0 + cs.sum) / 8000) fakeWords.length)
        ing2 fp2 := heq
  rw [Nat.zero_add] at heq2
  have hrep3 : goodRep ing2 cs.sum := by rwa [Nat.zero_add] at hrep2
  have hj : joinWords fakeWords = "Hello Klarvia I have a headache" := by decide
  refine ⟨P, ?_, ?_, hnf⟩
  · rw [heq2, fakeEmitter_stop fb fp2 cs.sum ing2 hrep3 hsum, hj]
  · refine hpart ?_
    have hminr : min ((0 + cs.sum) / 8000) fakeWords.length = fakeWords.length := by
      rw [Nat.zero_add]
      apply min_eq_right
      have hdd : 48000 / 8000 ≤ cs.sum / 8000 := Nat.div_le_div_right hsum
      simpa [fakeWords] using hdd
    rw [hminr]
    decide

set_option maxRecDepth 400000

/-- Counterexample to C8 as stated: 47 chunks of 1001 bytes followed by
one of 953 bytes total exactly 48000 bytes — 1500 ms of real audio — yet
the float accumulation lands on `6597069766655999 / 2^42`
(`1499.9999999999998`, bit-for-bit the CPython value, as is
`bytes_to_ms(1001) = 8804889115230207 / 2^48`), so only five words unlock;
the session emits the five-word partial but never a final, no matter how
long it waits after the stop frame. -/
theorem C8_counterexample :
    ((List.replicate 47 1001 ++ [953] : List Nat).sum = 48000 ∧
      ∀ n ∈ (List.replicate 47 1001 ++ [953] : List Nat), 0 < n) ∧
    bytesToMs 1001 = ⟨8804889115230207, 281474976710656⟩ ∧
    (List.replicate 47 1001 ++ [953]).foldl
        (fun a n => roundD (a.add (bytesToMs n))) ⟨0, 1⟩ =
      ⟨6597069766655999, 4398046511104⟩ ∧
    QMsg.partialMsg "Hello Klarvia I have a" ∈
      fakeEmitter true (chunkSteps (List.replicate 47 1001 ++ [953]) ++
        List.replicate 20 stopStep) 0 ⟨0, 1⟩ false ∧
    (fakeEmitter true (chunkSteps (List.replicate 47 1001 ++ [953]) ++
        List.replicate 20 stopStep) 0 ⟨0, 1⟩ false).filter isFinalMsg = [] := by
  refine ⟨⟨by decide, by decide⟩, by decide, by decide, by decide, by decide⟩

/-- Witness for C8 at twelve 4000-byte chunks (1500 ms) then a stop. -/
theorem C8_witness :
    ∃ P, fakeEmitter true (chunkSteps (List.replicate 12 4000) ++ [stopStep]) 0
        ⟨0, 1⟩ false =
        P ++ [QMsg.finalMsg "Hello Klarvia I have a headache"] ∧
      (∃ t, QMsg.partialMsg t ∈ P) ∧
      ∀ m ∈ P, isFinalMsg m = false :=
  C8_simulator_pacing (List.replicate 12 4000) true false (by decide) (by decide)
    (by decide) (by decide)

set_option maxRecDepth 512
end Klarvia
